import Mathlib

/-!
Verification development for the CS412 Longest-Path project.

We give a shallow embedding of the algorithmic core of the repository:

* `find_longest_path`            — src/exact_solution/cs412_longestpath_exact.py
* `greedy_path_from_start` and
  `find_longest_path_approx`     — src/approx_solution/cs412_longestpath_approx.py
* `greedy_path_from_start_improved`, `greedy_path_highweight_priority`,
  `greedy_path_connect_highweight_edges` and
  `find_longest_path_approx_improved`
                                 — src/part_E/cs412_longestpath_approx_improved.py

Modelling conventions:

* Vertices are `String`s, edge weights are rationals (`ℚ`); Python floats are
  modelled by exact rational arithmetic.
* A Python `dict` `graph[u][v] = w` is an association list preserving insertion
  order (`Graph` below); Python dicts have no duplicate keys, which we state
  as the predicate `DictLike` where a proof needs it.
* The Python global `random` module is modelled by an explicitly threaded
  state `RNG`; `random.seed` replaces the state by `mkRNG seed`,
  `random.choice` consumes one step of the generator.  The concrete generator
  is irrelevant to every property proved here; we use a linear congruential
  step so that everything is executable.
* Paths are accumulated in reverse (head = last vertex appended), mirroring
  Python's `path.append`; the in-order path is recovered with `List.reverse`
  at the return boundary.
* Unbounded `while True:` loops take an explicit `fuel : Nat`.  The loops of
  the baseline solver add a fresh vertex at every iteration, so any fuel
  larger than the number of adjacency entries makes the embedding agree with
  Python; the wrappers pass such a fuel.  The improved builder's loop can
  genuinely diverge (see the non-termination theorem below), so it returns
  `Option`, `none` meaning the fuel ran out.
-/

/-- Model of the state of Python's global `random` module. -/
abbrev RNG := Nat

/-- One step of the pseudo-random generator (a linear congruential step;
the particular generator is irrelevant to the properties proved here). -/
def rngNext (s : RNG) : RNG := (s * 1103515245 + 12345) % 2147483648

/-- Model of `random.seed(z)`: the ambient generator state is replaced by a state
computed from the seed alone. -/
def mkRNG (z : ℤ) : RNG := (z % 2147483648).toNat

/-- Model of `random.choice` on a list: consume one generator step and pick an index.
Only ever applied to non-empty lists (Python raises on an empty one). -/
def randChoice {α : Type} [Inhabited α] (s : RNG) (l : List α) : α × RNG :=
  let s' := rngNext s
  (l.getD (s' % l.length) default, s')

/-- Model of `random.sample(l, k)`: k distinct positions, without replacement. -/
def randSample {α : Type} [Inhabited α] (s : RNG) (k : Nat) (l : List α) :
    List α × RNG :=
  match k with
  | 0 => ([], s)
  | k + 1 =>
    if l.isEmpty then ([], s)
    else
      let s' := rngNext s
      let i := s' % l.length
      let x := l.getD i default
      let p := randSample s' k (l.eraseIdx i)
      (x :: p.1, p.2)

/-- The graph: `graph[u]` is an insertion-ordered mapping neighbor → weight,
as produced by `read_graph` (Python `defaultdict(dict)`). -/
abbrev Graph := List (String × List (String × ℚ))

/-- Lookup `graph[u]` — the adjacency mapping of `u` (empty when `u not in graph`). -/
def adj (g : Graph) (u : String) : List (String × ℚ) :=
  match g with
  | [] => []
  | (v, l) :: rest => if u = v then l else adj rest u

/-- Lookup `graph[u][v]` as an optional lookup. -/
def edgeWeight (g : Graph) (u v : String) : Option ℚ :=
  lookupW (adj g u) v
where
  lookupW : List (String × ℚ) → String → Option ℚ
  | [], _ => none
  | (x, w) :: rest, v => if v = x then some w else lookupW rest v

/-- Test `v in graph[u]`. -/
def edgeEx (g : Graph) (u v : String) : Bool := (edgeWeight g u v).isSome

/-- No duplicate keys, outer or inner: the association list really is a
Python dict of dicts. -/
def DictLike (g : Graph) : Prop :=
  (g.map Prod.fst).Nodup ∧ ∀ p ∈ g, (p.2.map Prod.fst).Nodup

/-- The graph model's invariant (spec §3): every adjacency key and every
neighbor is a vertex of the graph. -/
def WellFormed (vertices : List String) (g : Graph) : Prop :=
  ∀ p ∈ g, p.1 ∈ vertices ∧ ∀ q ∈ p.2, q.1 ∈ vertices

/-- A valid simple path: all vertices exist, consecutive vertices are joined
by an edge, no repeats (spec §8, validity). -/
def validPath (vertices : List String) (g : Graph) (p : List String) : Prop :=
  (∀ v ∈ p, v ∈ vertices) ∧ List.Chain' (fun u v => edgeEx g u v = true) p ∧ p.Nodup

instance (vertices : List String) (g : Graph) :
    Decidable (WellFormed vertices g) := by
  unfold WellFormed
  infer_instance

instance (g : Graph) : Decidable (DictLike g) := by
  unfold DictLike
  infer_instance

instance (vertices : List String) (g : Graph) (p : List String) :
    Decidable (validPath vertices g p) := by
  unfold validPath
  infer_instance

/-- Total weight of an in-order path: sum of the weights of consecutive
edges (missing edges count 0; on valid paths every edge is present). -/
def pathWeight (g : Graph) : List String → ℚ
  | u :: v :: rest => ((edgeWeight g u v).getD 0) + pathWeight g (v :: rest)
  | _ => 0

/-- Total weight of a reversed path accumulator (head = last vertex). -/
def revWeight (g : Graph) : List String → ℚ
  | b :: a :: rest => revWeight g (a :: rest) + ((edgeWeight g a b).getD 0)
  | _ => 0

/-- The list `[w for edges in graph.values() for w in edges.values()]`:
every adjacency entry's weight, in insertion order (each undirected edge
contributes one entry per direction). -/
def allWeights : Graph → List ℚ
  | [] => []
  | (_, l) :: rest => l.map Prod.snd ++ allWeights rest

/-- Absolute tie tolerance `1e-9` (spec §4.3). -/
def tol : ℚ := 1 / 1000000000

/-- Stable descending insertion (earlier elements stay before equal later
ones), modelling Python's stable `sort(key=key, reverse=True)`. -/
def insertByDesc {α β : Type} [LinearOrder β] (key : α → β) (x : α) :
    List α → List α
  | [] => [x]
  | y :: ys => if key y ≤ key x then x :: y :: ys else y :: insertByDesc key x ys

/-- Stable descending sort by a key, modelling Python's
`sort(key=key, reverse=True)` / `sorted(key=key, reverse=True)`. -/
def sortByDesc {α β : Type} [LinearOrder β] (key : α → β) : List α → List α
  | [] => []
  | x :: xs => insertByDesc key x (sortByDesc key xs)

/-! ## Exact solver (src/exact_solution/cs412_longestpath_exact.py) -/

/-- Lines 115-119: record a strictly longer path (strict `>`, copy of path). -/
def updateBest (len : ℚ) (path : List String) (best : ℚ × List String) :
    ℚ × List String :=
  if best.1 < len then (len, path) else best

/-- Lines 104-131, the recursive `dfs`.  `pathRev` is the current path in
reverse (`visited` in the Python code is exactly the set of its elements, so
membership is tested on `pathRev` directly); `len` is the accumulated weight,
`best` the `(max_length, best_path)` accumulator.  The Python recursion has
no fuel; its depth is bounded by the path length, so the top-level fuel
`vertices.length` is never exhausted on well-formed graphs. -/
def dfs (g : Graph) : Nat → String → List String → ℚ → (ℚ × List String) →
    ℚ × List String
  | 0, _, _, _, best => best
  | fuel + 1, current, pathRev, len, best =>
    let best1 := updateBest len pathRev.reverse best
    (adj g current).foldl
      (fun b nw =>
        if pathRev.contains nw.1 then b
        else dfs g fuel nw.1 (nw.1 :: pathRev) (len + nw.2) b)
      best1

/-- Lines 82-138, `find_longest_path`: DFS from every vertex, global best. -/
def find_longest_path (vertices : List String) (g : Graph) : ℚ × List String :=
  if vertices.isEmpty then (0, [])
  else vertices.foldl (fun best start => dfs g vertices.length start [start] 0 best)
    (0, [])

/-! ## Greedy step scorers -/

/-- The strategy strings `'greedy'`, `'lookahead'`, `'lookahead2'`. -/
inductive Strategy
  | greedy
  | lookahead
  | lookahead2
deriving DecidableEq

/-- A scorer: (visited, current, neighbor, direct edge weight) → score.
The graph and any precomputed data are captured in the closure. -/
abbrev Scorer := List String → String → String → ℚ → ℚ

/-- One-step lookahead score (baseline lines 113-123, improved lines 163-171):
weight + 0.3 · max forward weight to an unvisited vertex other than current. -/
def scoreLookahead (g : Graph) : Scorer := fun visited current neighbor w =>
  let future_potential := (adj g neighbor).foldl
    (fun m fn =>
      if visited.contains fn.1 then m
      else if fn.1 = current then m
      else max m fn.2) 0
  w + (3 / 10) * future_potential

/-- Two-step lookahead score (improved lines 145-162). -/
def scoreLookahead2 (g : Graph) : Scorer := fun visited current neighbor w =>
  let future_potential := (adj g neighbor).foldl
    (fun m fn =>
      if visited.contains fn.1 then m
      else if fn.1 = current then m
      else
        let second_step_potential := (adj g fn.1).foldl
          (fun m2 sn =>
            if visited.contains sn.1 then m2
            else if sn.1 = neighbor then m2
            else max m2 sn.2) 0
        max m (fn.2 + (2 / 10) * second_step_potential)) 0
  w + (4 / 10) * future_potential

/-- Simple greedy score: the edge weight itself. -/
def scoreGreedy : Scorer := fun _ _ _ w => w

/-- Baseline dispatch (approx lines 113-125): anything other than the string
`'lookahead'` falls through to the simple greedy branch. -/
def scorerBaseline (g : Graph) : Strategy → Scorer
  | .lookahead => scoreLookahead g
  | _ => scoreGreedy

/-- Improved dispatch (improved lines 145-173). -/
def scorerImproved (g : Graph) : Strategy → Scorer
  | .lookahead2 => scoreLookahead2 g
  | .lookahead => scoreLookahead g
  | .greedy => scoreGreedy

/-- Improved lines 236-245: the high-weight bonus threshold is entry number 2
(0-based) of all adjacency weights sorted descending — duplicates kept and
each undirected edge counted once per direction. -/
def high_weight_threshold (g : Graph) : ℚ :=
  let all_weights := allWeights g
  if all_weights.isEmpty then 0
  else
    let sorted_weights := sortByDesc id all_weights
    if 3 ≤ sorted_weights.length then sorted_weights.getD 2 0
    else sorted_weights.getD 0 0

/-- Improved lines 250-301: the HighWeightPriority score.  `thr` is
`high_weight_threshold g`, `vertices` the full vertex list (needed for the
dead-end penalty).  The forward scan is a single in-order fold computing
`(future_max, future_high_count, two_step_max)` exactly as the Python loop
mutates them. -/
def scoreHighweight (g : Graph) (vertices : List String) (thr : ℚ) : Scorer :=
  fun visited current neighbor w =>
  let base := if thr ≤ w then w + w * (2 / 10) else w
  let scan := (adj g neighbor).foldl
    (fun (acc : ℚ × Nat × ℚ) fn =>
      if visited.contains fn.1 then acc
      else if fn.1 = current then acc
      else
        let fm := max acc.1 fn.2
        let fm2 := if thr ≤ fn.2 then fm + fn.2 * (15 / 100) else fm
        let cnt := if thr ≤ fn.2 then acc.2.1 + 1 else acc.2.1
        let ts := (adj g fn.1).foldl
          (fun t sn =>
            if visited.contains sn.1 then t
            else if sn.1 = neighbor then t
            else max t (fn.2 + sn.2)) acc.2.2
        (fm2, cnt, ts)) (0, 0, 0)
  let withAhead := base + scan.1 * (6 / 10) + scan.2.2 * (4 / 10)
  let withCount :=
    if 1 < scan.2.1 then withAhead + (scan.2.1 : ℚ) * 20 else withAhead
  let unvisited_neighbor_count :=
    (adj g neighbor).countP (fun fn => !visited.contains fn.1 && fn.1 != current)
  if unvisited_neighbor_count ≤ 1 ∧ visited.length < vertices.length - 2 then
    withCount - 30
  else withCount

/-- The directed adjacency entries `(u, v, w)` in iteration order. -/
def directedEdges : Graph → List (String × String × ℚ)
  | [] => []
  | (u, l) :: rest => l.map (fun q => (u, q.1, q.2)) ++ directedEdges rest

/-- Improved lines 351-358: collect each undirected edge once, keeping the
first-encountered orientation.  Python keys `seen_pairs` by
`tuple(sorted([u, v]))`; membership of the sorted key is equivalent to
membership of either orientation, which is how we model it. -/
def dedupEdges : List (String × String × ℚ) → List (String × String) →
    List (String × String × ℚ)
  | [], _ => []
  | e :: rest, seen =>
    if seen.contains (e.1, e.2.1) || seen.contains (e.2.1, e.1) then
      dedupEdges rest seen
    else e :: dedupEdges rest ((e.1, e.2.1) :: seen)

/-- The deduplicated edge list of the graph, in first-encounter order. -/
def all_edges (g : Graph) : List (String × String × ℚ) :=
  dedupEdges (directedEdges g) []

/-- Improved lines 360-364: sort edges by weight descending and take
`max(5, len(all_edges))` of them — which is always the whole list. -/
def top_edges (g : Graph) : List (String × String × ℚ) :=
  let sorted := sortByDesc (fun e => e.2.2) (all_edges g)
  sorted.take (max 5 sorted.length)

/-- Improved lines 365-368: endpoints of the top edges. -/
def high_weight_vertices (g : Graph) : List String :=
  (top_edges g).foldr (fun e acc => e.1 :: e.2.1 :: acc) []

/-- Whether `(u, v)` occurs (in either orientation) among the top edges:
improved lines 383-384 and 398-400. -/
def isTopEdge (topE : List (String × String × ℚ)) (u v : String) : Bool :=
  topE.any (fun e => (u = e.1 ∧ v = e.2.1) ∨ (u = e.2.1 ∧ v = e.1))

/-- Improved lines 378-407: the EdgeClusterPriority score. -/
def scoreConnect (g : Graph) (topE : List (String × String × ℚ))
    (hwv : List String) : Scorer := fun visited current neighbor w =>
  let base := if isTopEdge topE current neighbor then w + w * (5 / 10) else w
  let base2 := if hwv.contains neighbor then base + 20 else base
  let future_high := (adj g neighbor).foldl
    (fun fh fn =>
      if visited.contains fn.1 then fh
      else if fn.1 = current then fh
      else if isTopEdge topE neighbor fn.1 then fh + fn.2 * (6 / 10)
      else max fh (fn.2 * (3 / 10))) 0
  base2 + future_high

/-! ## Heuristic path builders -/

/-- The scored unvisited neighbors of `current`, in adjacency order
(`(score, weight, neighbor)` triples). -/
def candidatesOf (g : Graph) (score : Scorer) (visited : List String)
    (current : String) : List (ℚ × ℚ × String) :=
  (adj g current).filterMap
    (fun nw =>
      if visited.contains nw.1 then none
      else some (score visited current nw.1 nw.2, nw.2, nw.1))

/-- Sort candidates by score descending (stable), collect all within absolute
tolerance `tol` of the maximum, choose randomly among the ties; returns the
chosen `(weight, neighbor)` and the advanced generator.  Mirrors the
identical block in every builder (e.g. approx lines 130-138). -/
def pickStep (r : RNG) (candidates : List (ℚ × ℚ × String)) :
    (ℚ × String) × RNG :=
  let sorted := sortByDesc (fun c => c.1) candidates
  let max_score := (sorted.headD (0, 0, "")).1
  let tied := sorted.filter (fun c => |c.1 - max_score| < tol)
  let cr := randChoice r tied
  ((cr.1.2.1, cr.1.2.2), cr.2)

/-- The `while True:` loop shared by the builders without backtracking
(approx lines 107-146, improved lines 247-321 and 375-427).  Each iteration
adds a fresh vertex taken from the adjacency lists, so the loop runs at most
`(number of adjacency entries) + 1` times; fuel beyond that is never
exhausted and the fuel-0 branch just returns the state built so far. -/
def buildLoop (g : Graph) (score : Scorer) :
    Nat → List String → List String → String → ℚ → RNG →
    (ℚ × List String) × RNG
  | 0, _, pathRev, _, len, r => ((len, pathRev), r)
  | fuel + 1, visited, pathRev, current, len, r =>
    let cands := candidatesOf g score visited current
    if cands.isEmpty then ((len, pathRev), r)
    else
      let pick := pickStep r cands
      buildLoop g score fuel (pick.1.2 :: visited) (pick.1.2 :: pathRev)
        pick.1.2 (len + pick.1.1) pick.2

/-- Fuel that the baseline loop can never exhaust: one more than the number
of adjacency entries of the graph. -/
def fuelFor (g : Graph) : Nat := (allWeights g).length + 1

/-- Approx lines 82-146, `greedy_path_from_start`: seed the generator when a
seed is given, run the greedy loop, return `(length, path)` in order. -/
def greedy_path_from_start (start : String) (g : Graph)
    (random_seed : Option ℤ) (strategy : Strategy) (r : RNG) :
    (ℚ × List String) × RNG :=
  let r0 := match random_seed with | some s => mkRNG s | none => r
  let res := buildLoop g (scorerBaseline g strategy) (fuelFor g)
    [start] [start] start 0 r0
  ((res.1.1, res.1.2.reverse), res.2)

/-- Improved lines 139-202: the loop of `greedy_path_from_start_improved`,
i.e. `buildLoop` plus the one-step backtrack repair at a dead end (lines
175-184): pop the tail, unmark it visited, subtract its incoming edge weight
(0 when the edge is absent, mirroring the Python conditional expression) and
retry.  This loop can genuinely run forever, hence the `Option`: `none`
means the fuel ran out. -/
def buildLoopBT (g : Graph) (vertices : List String) (score : Scorer) :
    Nat → List String → List String → String → ℚ → RNG →
    Option ((ℚ × List String) × RNG)
  | 0, _, _, _, _, _ => none
  | fuel + 1, visited, pathRev, current, len, r =>
    let cands := candidatesOf g score visited current
    if cands.isEmpty then
      match pathRev with
      | b :: c :: rest =>
        if visited.length < vertices.length then
          buildLoopBT g vertices score fuel (visited.erase b) (c :: rest) c
            (len - ((edgeWeight g c b).getD 0)) r
        else some ((len, pathRev), r)
      | _ => some ((len, pathRev), r)
    else
      let pick := pickStep r cands
      buildLoopBT g vertices score fuel (pick.1.2 :: visited)
        (pick.1.2 :: pathRev) pick.1.2 (len + pick.1.1) pick.2

/-- Improved lines 111-202, `greedy_path_from_start_improved`. -/
def greedy_path_from_start_improved (fuel : Nat) (start : String) (g : Graph)
    (vertices : List String) (random_seed : Option ℤ) (strategy : Strategy)
    (r : RNG) : Option ((ℚ × List String) × RNG) :=
  let r0 := match random_seed with | some s => mkRNG s | none => r
  match buildLoopBT g vertices (scorerImproved g strategy) fuel
      [start] [start] start 0 r0 with
  | none => none
  | some res => some ((res.1.1, res.1.2.reverse), res.2)

/-- Improved lines 205-322, `greedy_path_highweight_priority` (no
backtracking in its loop). -/
def greedy_path_highweight_priority (start : String) (g : Graph)
    (vertices : List String) (random_seed : Option ℤ) (r : RNG) :
    (ℚ × List String) × RNG :=
  let r0 := match random_seed with | some s => mkRNG s | none => r
  let thr := high_weight_threshold g
  let res := buildLoop g (scoreHighweight g vertices thr) (fuelFor g)
    [start] [start] start 0 r0
  ((res.1.1, res.1.2.reverse), res.2)

/-- Improved lines 325-428, `greedy_path_connect_highweight_edges` (no
backtracking in its loop). -/
def greedy_path_connect_highweight_edges (start : String) (g : Graph)
    (random_seed : Option ℤ) (r : RNG) : (ℚ × List String) × RNG :=
  let r0 := match random_seed with | some s => mkRNG s | none => r
  let topE := top_edges g
  let hwv := high_weight_vertices g
  let res := buildLoop g (scoreConnect g topE hwv) (fuelFor g)
    [start] [start] start 0 r0
  ((res.1.1, res.1.2.reverse), res.2)

/-! ## Multi-start drivers -/

/-- Approx lines 149-224, `find_longest_path_approx`.  The ambient generator
state `r` is threaded explicitly; every builder call receives an explicit
seed (`random_seed + i*1000 + seed_offset` when a seed was given, else
`i*1000 + seed_offset`), exactly as in the Python loop. -/
def find_longest_path_approx (vertices : List String) (g : Graph)
    (num_starts : Option Nat) (random_seed : Option ℤ) (r : RNG) :
    (ℚ × List String) × RNG :=
  if vertices.isEmpty then ((0, []), r)
  else
    let n := vertices.length
    let ns := match num_starts with
      | some k => k
      | none => if n ≤ 100 then n else if n ≤ 200 then min 150 n else min 200 n
    let vertex_list := vertices
    let startsR : List String × RNG :=
      if n ≤ ns then (vertex_list, r)
      else
        let r0 := match random_seed with | some s => mkRNG s | none => r
        randSample r0 ns vertex_list
    let num_seeds := if n ≤ 20 then 30 else if n ≤ 50 then 20
      else if n ≤ 100 then 15 else 10
    let seedBase : ℤ := random_seed.getD 0
    startsR.1.enum.foldl
      (fun acc p =>
        (List.range num_seeds).foldl
          (fun (acc : (ℚ × List String) × RNG) (offset : ℕ) =>
            let seed : ℤ := seedBase + (p.1 : ℤ) * 1000 + (offset : ℤ)
            let r1 := greedy_path_from_start p.2 g (some seed) .greedy acc.2
            let b1 := updateBest r1.1.1 r1.1.2 acc.1
            let r2 := greedy_path_from_start p.2 g (some seed) .lookahead r1.2
            (updateBest r2.1.1 r2.1.2 b1, r2.2))
          acc)
      ((0, []), startsR.2)

/-- Improved lines 479-491: select the starting vertices of the improved
driver — all of `vertex_list` when the start budget covers it, otherwise the
top-degree prefix plus up to 5 randomly sampled further vertices. -/
def improved_select_starts (vertex_list : List String) (n ns : Nat)
    (random_seed : Option ℤ) (r : RNG) : List String × RNG :=
  if n ≤ ns then (vertex_list, r)
  else
    let starts0 := vertex_list.take ns
    let r0 := match random_seed with | some s => mkRNG s | none => r
    let remaining := vertex_list.filter (fun v => !starts0.contains v)
    if remaining.isEmpty then (starts0, r0)
    else
      let additional := min 5 (min remaining.length (n - ns))
      let smp := randSample r0 additional remaining
      (starts0 ++ smp.1, smp.2)

/-- Improved lines 526-569: one (start, seed) iteration of the improved
driver — the two special-strategy builders on problematic sizes, otherwise
the three backtracking builder strategies plus the high-weight builder.
`none` when a backtracking builder's fuel ran out. -/
def improved_attempt (fuel : Nat) (g : Graph) (vertices : List String)
    (is_problematic : Bool) (start : String) (seed : ℤ)
    (st : (ℚ × List String) × RNG) : Option ((ℚ × List String) × RNG) :=
  if is_problematic then
    let h1 := greedy_path_highweight_priority start g vertices (some seed) st.2
    let b1 := updateBest h1.1.1 h1.1.2 st.1
    let h2 := greedy_path_connect_highweight_edges start g (some seed) h1.2
    some (updateBest h2.1.1 h2.1.2 b1, h2.2)
  else
    match greedy_path_from_start_improved fuel start g vertices (some seed)
        .greedy st.2 with
    | none => none
    | some r1 =>
      let b1 := updateBest r1.1.1 r1.1.2 st.1
      match greedy_path_from_start_improved fuel start g vertices (some seed)
          .lookahead r1.2 with
      | none => none
      | some r2 =>
        let b2 := updateBest r2.1.1 r2.1.2 b1
        match greedy_path_from_start_improved fuel start g vertices (some seed)
            .lookahead2 r2.2 with
        | none => none
        | some r3 =>
          let b3 := updateBest r3.1.1 r3.1.2 b2
          let h4 := greedy_path_highweight_priority start g vertices
            (some seed) r3.2
          some (updateBest h4.1.1 h4.1.2 b3, h4.2)

/-- Improved lines 431-571, `find_longest_path_approx_improved`.  `fuel`
bounds each backtracking builder call; `none` means some call exhausted it
(the Python loop would still be running). -/
def find_longest_path_approx_improved (fuel : Nat) (vertices : List String)
    (g : Graph) (num_starts : Option Nat) (random_seed : Option ℤ) (r : RNG) :
    Option ((ℚ × List String) × RNG) :=
  if vertices.isEmpty then some ((0, []), r)
  else
    let n := vertices.length
    let vertex_list := sortByDesc (fun v => (adj g v).length) vertices
    let ns0 := match num_starts with
      | some k => k
      | none => if n ≤ 100 then n else if n ≤ 200 then min 150 n else min 200 n
    let ns := if 8 ≤ n ∧ n ≤ 12 then min (n * 2) n else ns0
    let startsR := improved_select_starts vertex_list n ns random_seed r
    let edge_count := (g.foldl (fun acc p => acc + p.2.length) 0) / 2
    let is_problematic := decide (9 ≤ n ∧ n ≤ 12 ∧ edge_count ≤ 20)
    let starts := if is_problematic then vertex_list else startsR.1
    let num_seeds := if is_problematic then 30 else if n ≤ 12 then 15
      else if n ≤ 20 then 12 else if n ≤ 50 then 8 else if n ≤ 100 then 5 else 3
    let seedBase : ℤ := random_seed.getD 0
    starts.enum.foldl
      (fun acc p =>
        (List.range num_seeds).foldl
          (fun (acc : Option ((ℚ × List String) × RNG)) (offset : ℕ) =>
            match acc with
            | none => none
            | some st => improved_attempt fuel g vertices is_problematic p.2
                (seedBase + (p.1 : ℤ) * 1000 + (offset : ℤ)) st)
          acc)
      (some ((0, []), startsR.2))

/-! ## Basic lemmas about the embedding -/

theorem tol_pos : 0 < tol := by norm_num [tol]

theorem insertByDesc_perm {α β : Type} [LinearOrder β] (key : α → β) (x : α) :
    ∀ l : List α, (insertByDesc key x l).Perm (x :: l) := by
  intro l
  induction l with
  | nil => simp [insertByDesc]
  | cons y ys ih =>
    by_cases h : key y ≤ key x
    · simp [insertByDesc, h]
    · simp only [insertByDesc, if_neg h]
      exact (ih.cons y).trans (List.Perm.swap x y ys)

theorem sortByDesc_perm {α β : Type} [LinearOrder β] (key : α → β) :
    ∀ l : List α, (sortByDesc key l).Perm l := by
  intro l
  induction l with
  | nil => simp [sortByDesc]
  | cons x xs ih =>
    exact (insertByDesc_perm key x (sortByDesc key xs)).trans (ih.cons x)

theorem insertByDesc_sorted {α β : Type} [LinearOrder β] (key : α → β) (x : α)
    (l : List α) (h : List.Sorted (fun a b => key b ≤ key a) l) :
    List.Sorted (fun a b => key b ≤ key a) (insertByDesc key x l) := by
  induction l with
  | nil => simp [insertByDesc]
  | cons y ys ih =>
    rcases List.sorted_cons.mp h with ⟨hy, hys⟩
    by_cases hc : key y ≤ key x
    · simp only [insertByDesc, if_pos hc]
      refine List.sorted_cons.mpr ⟨?_, h⟩
      intro b hb
      rcases List.mem_cons.mp hb with rfl | hb
      · exact hc
      · exact le_trans (hy b hb) hc
    · simp only [insertByDesc, if_neg hc]
      refine List.sorted_cons.mpr ⟨?_, ih hys⟩
      intro b hb
      have hb2 := (insertByDesc_perm key x ys).mem_iff.mp hb
      rcases List.mem_cons.mp hb2 with rfl | hb2
      · exact le_of_not_le hc
      · exact hy b hb2

theorem sortByDesc_sorted {α β : Type} [LinearOrder β] (key : α → β) :
    ∀ l : List α, List.Sorted (fun a b => key b ≤ key a) (sortByDesc key l) := by
  intro l
  induction l with
  | nil => simp [sortByDesc]
  | cons x xs ih => exact insertByDesc_sorted key x _ ih

theorem lookupW_mem {l : List (String × ℚ)} {v : String} {w : ℚ}
    (h : edgeWeight.lookupW l v = some w) : (v, w) ∈ l := by
  induction l with
  | nil => simp [edgeWeight.lookupW] at h
  | cons p rest ih =>
    obtain ⟨x, wx⟩ := p
    by_cases hv : v = x
    · subst hv
      simp [edgeWeight.lookupW] at h
      simp [← h]
    · simp only [edgeWeight.lookupW] at h
      rw [if_neg hv] at h
      exact List.mem_cons_of_mem _ (ih h)

theorem lookupW_isSome_of_mem {l : List (String × ℚ)} {v : String} {w : ℚ}
    (h : (v, w) ∈ l) : (edgeWeight.lookupW l v).isSome = true := by
  induction l with
  | nil => simp at h
  | cons p rest ih =>
    obtain ⟨x, wx⟩ := p
    by_cases hv : v = x
    · simp [edgeWeight.lookupW, hv]
    · simp only [edgeWeight.lookupW]
      rw [if_neg hv]
      rcases List.mem_cons.mp h with h1 | h1
      · exact absurd (congrArg Prod.fst h1) hv
      · exact ih h1

theorem lookupW_eq_of_mem_nodup {l : List (String × ℚ)} {v : String} {w : ℚ}
    (hn : (l.map Prod.fst).Nodup) (h : (v, w) ∈ l) :
    edgeWeight.lookupW l v = some w := by
  induction l with
  | nil => simp at h
  | cons p rest ih =>
    obtain ⟨x, wx⟩ := p
    simp only [List.map_cons, List.nodup_cons] at hn
    rcases List.mem_cons.mp h with h1 | h1
    · have hvx : v = x := congrArg Prod.fst h1
      have hww : w = wx := congrArg Prod.snd h1
      subst hvx; subst hww
      simp [edgeWeight.lookupW]
    · have hv : v ≠ x := by
        rintro rfl
        exact hn.1 (List.mem_map.mpr ⟨(v, w), h1, rfl⟩)
      simp only [edgeWeight.lookupW]
      rw [if_neg hv]
      exact ih hn.2 h1

theorem adj_map_fst_nodup {g : Graph} (hd : DictLike g) (u : String) :
    ((adj g u).map Prod.fst).Nodup := by
  induction g with
  | nil => simp [adj]
  | cons p rest ih =>
    match p with
    | (a, l) =>
      simp only [adj]
      by_cases hu : u = a
      · rw [if_pos hu]
        exact hd.2 (a, l) (List.mem_cons_self _ _)
      · rw [if_neg hu]
        refine ih ⟨?_, ?_⟩
        · exact (List.nodup_cons.mp hd.1).2
        · intro q hq
          exact hd.2 q (List.mem_cons_of_mem _ hq)

theorem edgeWeight_eq_of_mem {g : Graph} (hd : DictLike g) {u v : String} {w : ℚ}
    (h : (v, w) ∈ adj g u) : edgeWeight g u v = some w :=
  lookupW_eq_of_mem_nodup (adj_map_fst_nodup hd u) h

theorem edgeEx_of_mem {g : Graph} {u v : String} {w : ℚ}
    (h : (v, w) ∈ adj g u) : edgeEx g u v = true := by
  unfold edgeEx edgeWeight
  exact lookupW_isSome_of_mem h

theorem edgeEx_elim {g : Graph} {u v : String} (h : edgeEx g u v = true) :
    ∃ w, edgeWeight g u v = some w ∧ (v, w) ∈ adj g u := by
  unfold edgeEx at h
  rcases Option.isSome_iff_exists.mp h with ⟨w, hw⟩
  exact ⟨w, hw, lookupW_mem hw⟩

theorem adj_mem_vertices {vertices : List String} {g : Graph}
    (hwf : WellFormed vertices g) {u v : String} {w : ℚ}
    (h : (v, w) ∈ adj g u) : v ∈ vertices := by
  induction g with
  | nil => simp [adj] at h
  | cons p rest ih =>
    match p with
    | (a, l) =>
      simp only [adj] at h
      by_cases hu : u = a
      · rw [if_pos hu] at h
        exact ((hwf (a, l) (List.mem_cons_self _ _)).2 (v, w) h)
      · rw [if_neg hu] at h
        refine ih (fun q hq => hwf q (List.mem_cons_of_mem _ hq)) h

theorem mem_allWeights_of_mem_adj {g : Graph} {u v : String} {w : ℚ}
    (h : (v, w) ∈ adj g u) : w ∈ allWeights g := by
  induction g with
  | nil => simp [adj] at h
  | cons p rest ih =>
    match p with
    | (a, l) =>
      simp only [adj] at h
      simp only [allWeights, List.mem_append]
      by_cases hu : u = a
      · rw [if_pos hu] at h
        exact Or.inl (List.mem_map.mpr ⟨(v, w), h, rfl⟩)
      · rw [if_neg hu] at h
        exact Or.inr (ih h)

theorem pathWeight_append_pair (g : Graph) :
    ∀ (xs : List String) (a b : String),
      pathWeight g (xs ++ [a, b]) =
        pathWeight g (xs ++ [a]) + ((edgeWeight g a b).getD 0) := by
  intro xs
  induction xs with
  | nil => intro a b; simp [pathWeight]
  | cons x xs ih =>
    intro a b
    cases xs with
    | nil => simp [pathWeight]
    | cons y ys =>
      have e1 : pathWeight g (x :: y :: ys ++ [a, b]) =
          ((edgeWeight g x y).getD 0) + pathWeight g (y :: ys ++ [a, b]) := by
        simp [pathWeight]
      have e2 : pathWeight g (x :: y :: ys ++ [a]) =
          ((edgeWeight g x y).getD 0) + pathWeight g (y :: ys ++ [a]) := by
        simp [pathWeight]
      rw [e1, e2, ih a b]
      ring

theorem revWeight_eq_reverse (g : Graph) :
    ∀ l : List String, revWeight g l = pathWeight g l.reverse := by
  intro l
  induction l with
  | nil => simp [revWeight, pathWeight]
  | cons b l' ih =>
    cases l' with
    | nil => simp [revWeight, pathWeight]
    | cons a rest =>
      have h1 : (b :: a :: rest).reverse = (a :: rest).reverse ++ [b] := by
        simp
      have h2 : (a :: rest).reverse = rest.reverse ++ [a] := by simp
      rw [revWeight, ih, h1, h2, List.append_assoc]
      have h3 : ([a] ++ [b] : List String) = [a, b] := rfl
      rw [h3, pathWeight_append_pair g rest.reverse a b, ← h2]

theorem pathWeight_singleton (g : Graph) (a : String) : pathWeight g [a] = 0 := rfl

theorem pathWeight_nonpos {g : Graph} (h : ∀ w ∈ allWeights g, w ≤ 0) :
    ∀ p : List String, pathWeight g p ≤ 0 := by
  intro p
  induction p with
  | nil => simp [pathWeight]
  | cons u q ih =>
    cases q with
    | nil => simp [pathWeight]
    | cons v rest =>
      have hw : ((edgeWeight g u v).getD 0) ≤ 0 := by
        cases hcase : edgeWeight g u v with
        | none => simp
        | some w =>
          have := h w (mem_allWeights_of_mem_adj (lookupW_mem hcase))
          simpa using this
      calc pathWeight g (u :: v :: rest)
          = ((edgeWeight g u v).getD 0) + pathWeight g (v :: rest) := rfl
        _ ≤ 0 + 0 := add_le_add hw ih
        _ = 0 := by ring

/-! ## Lemmas about candidate selection -/

theorem randChoice_mem {α : Type} [Inhabited α] (r : RNG) (l : List α)
    (h : l ≠ []) : (randChoice r l).1 ∈ l := by
  have hl : 0 < l.length := List.length_pos.mpr h
  have hi : rngNext r % l.length < l.length := Nat.mod_lt _ hl
  show l.getD (rngNext r % l.length) default ∈ l
  rw [List.getD_eq_getElem l default hi]
  exact List.getElem_mem hi

theorem tied_ne_nil (l : List (ℚ × ℚ × String)) (h : l ≠ []) :
    l.filter (fun c => |c.1 - (l.headD (0, 0, "")).1| < tol) ≠ [] := by
  cases l with
  | nil => exact absurd rfl h
  | cons c0 rest =>
    intro hf
    have hc0 : c0 ∈ (c0 :: rest).filter
        (fun c => |c.1 - ((c0 :: rest).headD (0, 0, "")).1| < tol) := by
      refine List.mem_filter.mpr ⟨List.mem_cons_self _ _, ?_⟩
      simp only [List.headD_cons, sub_self, abs_zero, decide_eq_true_eq]
      exact tol_pos
    rw [hf] at hc0
    exact List.not_mem_nil _ hc0

theorem pickStep_spec (r : RNG) (cands : List (ℚ × ℚ × String)) (h : cands ≠ []) :
    ∃ c ∈ cands, (pickStep r cands).1 = (c.2.1, c.2.2) := by
  have hperm := sortByDesc_perm (fun c => c.1) cands
  have hsne : sortByDesc (fun c => c.1) cands ≠ [] := by
    intro he
    exact h (List.nil_perm.mp (he ▸ hperm))
  have htne := tied_ne_nil _ hsne
  have hmem := randChoice_mem r _ htne
  exact ⟨_, hperm.subset (List.mem_of_mem_filter hmem), rfl⟩

theorem mem_candidatesOf {g : Graph} {sc : Scorer} {visited : List String}
    {current : String} {c : ℚ × ℚ × String}
    (h : c ∈ candidatesOf g sc visited current) :
    (c.2.2, c.2.1) ∈ adj g current ∧ c.2.2 ∉ visited := by
  unfold candidatesOf at h
  rcases List.mem_filterMap.mp h with ⟨nw, hnw, hf⟩
  cases hv : visited.contains nw.1 with
  | true => rw [if_pos hv] at hf; exact absurd hf (by simp)
  | false =>
    rw [if_neg (by intro hT; rw [hv] at hT; exact Bool.noConfusion hT)] at hf
    have hc := Option.some.inj hf
    subst hc
    constructor
    · simpa using hnw
    · intro hm
      have hcontr : visited.contains nw.1 = true := by simpa using hm
      rw [hcontr] at hv
      exact Bool.noConfusion hv

/-! ## Generic fold lemmas -/

theorem foldl_preserve {α β : Type} (P : α → Prop) (f : α → β → α) :
    ∀ (l : List β) (a : α), P a → (∀ a x, x ∈ l → P a → P (f a x)) →
      P (l.foldl f a) := by
  intro l
  induction l with
  | nil => intro a ha _; simpa using ha
  | cons y ys ih =>
    intro a ha hstep
    simp only [List.foldl_cons]
    exact ih (f a y) (hstep a y (List.mem_cons_self _ _) ha)
      (fun a x hx => hstep a x (List.mem_cons_of_mem _ hx))

theorem le_foldl_fst {β : Type} (f : (ℚ × List String) → β → (ℚ × List String)) :
    ∀ (l : List β) (b : ℚ × List String),
      (∀ b x, x ∈ l → b.1 ≤ (f b x).1) → b.1 ≤ (l.foldl f b).1 := by
  intro l
  induction l with
  | nil => intro b _; simp
  | cons y ys ih =>
    intro b hmono
    simp only [List.foldl_cons]
    exact le_trans (hmono b y (List.mem_cons_self _ _))
      (ih (f b y) (fun b x hx => hmono b x (List.mem_cons_of_mem _ hx)))

theorem foldl_fst_ge_of_mem {β : Type} (f : (ℚ × List String) → β → (ℚ × List String))
    (t : ℚ) :
    ∀ (l : List β) (x : β), x ∈ l → (∀ b x, x ∈ l → b.1 ≤ (f b x).1) →
      (∀ b, t ≤ (f b x).1) → ∀ b0, t ≤ (l.foldl f b0).1 := by
  intro l
  induction l with
  | nil => intro x hx; simp at hx
  | cons y ys ih =>
    intro x hx hmono hach b0
    simp only [List.foldl_cons]
    rcases List.mem_cons.mp hx with rfl | hx2
    · exact le_trans (hach b0)
        (le_foldl_fst f ys (f b0 x) (fun b z hz => hmono b z (List.mem_cons_of_mem _ hz)))
    · exact ih x hx2 (fun b z hz => hmono b z (List.mem_cons_of_mem _ hz)) hach (f b0 y)

/-! ## The builder-loop invariant -/

/-- Invariant of the builder state (approx lines 102-105 and the loop body):
`current` is the path's tail, `visited` has exactly the path's members, the
path is a simple chain of existing edges whose total weight is `len`, and
all its vertices are graph vertices. -/
def BInv (g : Graph) (vertices visited pathRev : List String) (current : String)
    (len : ℚ) : Prop :=
  pathRev.head? = some current ∧ pathRev.Nodup ∧ visited.Nodup ∧
  (∀ x, x ∈ visited ↔ x ∈ pathRev) ∧
  List.Chain' (fun b a => edgeEx g a b = true) pathRev ∧
  len = revWeight g pathRev ∧
  (∀ v ∈ pathRev, v ∈ vertices)

/-- What holds of a loop's final `(len, reversed path)` pair. -/
def GoodRun (g : Graph) (vertices : List String) (out : ℚ × List String) : Prop :=
  out.2 ≠ [] ∧ out.2.Nodup ∧ List.Chain' (fun b a => edgeEx g a b = true) out.2 ∧
  out.1 = revWeight g out.2 ∧ ∀ v ∈ out.2, v ∈ vertices

theorem BInv.toGoodRun {g : Graph} {vertices visited pathRev current len}
    (h : BInv g vertices visited pathRev current len) :
    GoodRun g vertices (len, pathRev) := by
  obtain ⟨h1, h2, _, _, h5, h6, h7⟩ := h
  refine ⟨?_, h2, h5, h6, h7⟩
  intro he
  have he2 : pathRev = [] := he
  rw [he2] at h1
  exact Option.noConfusion h1

theorem BInv_extend {g : Graph} {vertices visited pathRev : List String}
    {current : String} {len : ℚ} (hwf : WellFormed vertices g) (hd : DictLike g)
    (hinv : BInv g vertices visited pathRev current len) {sc : Scorer}
    {c : ℚ × ℚ × String} (hc : c ∈ candidatesOf g sc visited current) :
    BInv g vertices (c.2.2 :: visited) (c.2.2 :: pathRev) c.2.2 (len + c.2.1) := by
  obtain ⟨hhead, hnd, hvnd, hiff, hchain, hlen, hsub⟩ := hinv
  obtain ⟨hmem, hnv⟩ := mem_candidatesOf hc
  have hnp : c.2.2 ∉ pathRev := fun hp => hnv ((hiff c.2.2).mpr hp)
  obtain ⟨rest, rfl⟩ : ∃ rest, pathRev = current :: rest := by
    cases pathRev with
    | nil => exact Option.noConfusion hhead
    | cons a l =>
      have ha : a = current := by simpa using hhead
      exact ⟨l, by rw [ha]⟩
  refine ⟨rfl, List.nodup_cons.mpr ⟨hnp, hnd⟩, List.nodup_cons.mpr ⟨hnv, hvnd⟩,
    ?_, ?_, ?_, ?_⟩
  · intro x
    constructor
    · intro hx
      rcases List.mem_cons.mp hx with rfl | hx2
      · exact List.mem_cons_self _ _
      · exact List.mem_cons_of_mem _ ((hiff x).mp hx2)
    · intro hx
      rcases List.mem_cons.mp hx with rfl | hx2
      · exact List.mem_cons_self _ _
      · exact List.mem_cons_of_mem _ ((hiff x).mpr hx2)
  · exact List.chain'_cons.mpr ⟨edgeEx_of_mem hmem, hchain⟩
  · have hw : edgeWeight g current c.2.2 = some c.2.1 := edgeWeight_eq_of_mem hd hmem
    simp only [revWeight, hw]
    rw [← hlen]
    simp
  · intro v hv
    rcases List.mem_cons.mp hv with rfl | hv2
    · exact adj_mem_vertices hwf hmem
    · exact hsub v hv2

theorem BInv_backtrack {g : Graph} {vertices visited : List String}
    {b c : String} {rest : List String} {current : String} {len : ℚ}
    (hinv : BInv g vertices visited (b :: c :: rest) current len) :
    BInv g vertices (visited.erase b) (c :: rest) c
      (len - ((edgeWeight g c b).getD 0)) := by
  obtain ⟨hhead, hnd, hvnd, hiff, hchain, hlen, hsub⟩ := hinv
  have hbn : b ∉ c :: rest := (List.nodup_cons.mp hnd).1
  refine ⟨rfl, (List.nodup_cons.mp hnd).2, hvnd.erase b, ?_, hchain.tail, ?_, ?_⟩
  · intro x
    rw [hvnd.mem_erase_iff]
    constructor
    · rintro ⟨hxb, hxv⟩
      rcases List.mem_cons.mp ((hiff x).mp hxv) with rfl | h2
      · exact absurd rfl hxb
      · exact h2
    · intro hx
      refine ⟨?_, (hiff x).mpr (List.mem_cons_of_mem _ hx)⟩
      rintro rfl
      exact hbn hx
  · rw [hlen]
    simp [revWeight]
  · intro v hv
    exact hsub v (List.mem_cons_of_mem _ hv)

theorem BInv_init {g : Graph} {vertices : List String} {start : String}
    (hs : start ∈ vertices) : BInv g vertices [start] [start] start 0 := by
  refine ⟨rfl, List.nodup_singleton _, List.nodup_singleton _, fun x => Iff.rfl,
    List.chain'_singleton _, rfl, ?_⟩
  intro v hv
  rcases List.mem_singleton.mp hv with rfl
  exact hs

theorem buildLoop_good {g : Graph} {vertices : List String}
    (hwf : WellFormed vertices g) (hd : DictLike g) (sc : Scorer) :
    ∀ (fuel : Nat) (visited pathRev : List String) (current : String) (len : ℚ)
      (r : RNG), BInv g vertices visited pathRev current len →
      GoodRun g vertices (buildLoop g sc fuel visited pathRev current len r).1 := by
  intro fuel
  induction fuel with
  | zero =>
    intro visited pathRev current len r hinv
    exact hinv.toGoodRun
  | succ n ih =>
    intro visited pathRev current len r hinv
    by_cases he : (candidatesOf g sc visited current).isEmpty = true
    · simp only [buildLoop, he, if_true]
      exact hinv.toGoodRun
    · have hne : candidatesOf g sc visited current ≠ [] := by
        intro h0
        rw [h0] at he
        exact he rfl
      obtain ⟨c, hc, hpick⟩ := pickStep_spec r _ hne
      simp only [buildLoop, he, if_false, hpick]
      exact ih _ _ _ _ _ (BInv_extend hwf hd hinv hc)

theorem buildLoopBT_good {g : Graph} {vertices : List String}
    (hwf : WellFormed vertices g) (hd : DictLike g) (sc : Scorer) :
    ∀ (fuel : Nat) (visited pathRev : List String) (current : String) (len : ℚ)
      (r : RNG) (out : (ℚ × List String) × RNG),
      BInv g vertices visited pathRev current len →
      buildLoopBT g vertices sc fuel visited pathRev current len r = some out →
      GoodRun g vertices out.1 := by
  intro fuel
  induction fuel with
  | zero =>
    intro visited pathRev current len r out _ hsome
    exact Option.noConfusion hsome
  | succ n ih =>
    intro visited pathRev current len r out hinv hsome
    by_cases he : (candidatesOf g sc visited current).isEmpty = true
    · cases pathRev with
      | nil =>
        simp only [buildLoopBT, he, if_true] at hsome
        have hout : ((len, ([] : List String)), r) = out := Option.some.inj hsome
        rw [← hout]
        exact hinv.toGoodRun
      | cons b tail =>
        cases tail with
        | nil =>
          simp only [buildLoopBT, he, if_true] at hsome
          have hout : ((len, [b]), r) = out := Option.some.inj hsome
          rw [← hout]
          exact hinv.toGoodRun
        | cons c rest =>
          simp only [buildLoopBT, he, if_true] at hsome
          by_cases hlt : visited.length < vertices.length
          · rw [if_pos hlt] at hsome
            exact ih _ _ _ _ _ _ (BInv_backtrack hinv) hsome
          · rw [if_neg hlt] at hsome
            have hout : ((len, b :: c :: rest), r) = out := Option.some.inj hsome
            rw [← hout]
            exact hinv.toGoodRun
    · have hne : candidatesOf g sc visited current ≠ [] := by
        intro h0
        rw [h0] at he
        exact he rfl
      obtain ⟨c, hc, hpick⟩ := pickStep_spec r _ hne
      simp only [buildLoopBT, he, if_false, hpick] at hsome
      exact ih _ _ _ _ _ _ (BInv_extend hwf hd hinv hc) hsome

/-- What every builder wrapper guarantees of its returned `(length, path)`
pair: the path is a valid simple path, the length is its recomputed weight
(spec §8 self-consistency), and the path is never empty. -/
def GoodResult (g : Graph) (vertices : List String) (res : ℚ × List String) :
    Prop :=
  validPath vertices g res.2 ∧ res.1 = pathWeight g res.2 ∧ res.2 ≠ []

theorem GoodRun.toResult {g : Graph} {vertices : List String}
    {out : ℚ × List String} (h : GoodRun g vertices out) :
    GoodResult g vertices (out.1, out.2.reverse) := by
  obtain ⟨h1, h2, h3, h4, h5⟩ := h
  refine ⟨⟨?_, ?_, ?_⟩, ?_, ?_⟩
  · intro v hv
    exact h5 v (List.mem_reverse.mp hv)
  · exact List.chain'_reverse.mpr h3
  · exact List.nodup_reverse.mpr h2
  · show out.1 = pathWeight g out.2.reverse
    rw [h4, revWeight_eq_reverse]
  · show out.2.reverse ≠ []
    simpa using h1

theorem greedy_path_from_start_good {g : Graph} {vertices : List String}
    (hwf : WellFormed vertices g) (hd : DictLike g) {start : String}
    (hs : start ∈ vertices) (seed : Option ℤ) (strat : Strategy) (r : RNG) :
    GoodResult g vertices (greedy_path_from_start start g seed strat r).1 :=
  (buildLoop_good hwf hd (scorerBaseline g strat) (fuelFor g) [start] [start]
    start 0 (match seed with | some s => mkRNG s | none => r)
    (BInv_init hs)).toResult

theorem greedy_path_highweight_priority_good {g : Graph}
    {vertices : List String} (hwf : WellFormed vertices g) (hd : DictLike g)
    {start : String} (hs : start ∈ vertices) (seed : Option ℤ) (r : RNG) :
    GoodResult g vertices
      (greedy_path_highweight_priority start g vertices seed r).1 :=
  (buildLoop_good hwf hd (scoreHighweight g vertices (high_weight_threshold g))
    (fuelFor g) [start] [start] start 0
    (match seed with | some s => mkRNG s | none => r) (BInv_init hs)).toResult

theorem greedy_path_connect_highweight_edges_good {g : Graph}
    {vertices : List String} (hwf : WellFormed vertices g) (hd : DictLike g)
    {start : String} (hs : start ∈ vertices) (seed : Option ℤ) (r : RNG) :
    GoodResult g vertices
      (greedy_path_connect_highweight_edges start g seed r).1 :=
  (buildLoop_good hwf hd (scoreConnect g (top_edges g) (high_weight_vertices g))
    (fuelFor g) [start] [start] start 0
    (match seed with | some s => mkRNG s | none => r) (BInv_init hs)).toResult

theorem improved_wrap_good {g : Graph} {vertices : List String}
    (hwf : WellFormed vertices g) (hd : DictLike g) {start : String}
    (hs : start ∈ vertices) (fuel : Nat) (strat : Strategy) (r0 : RNG)
    {out : (ℚ × List String) × RNG}
    (hsome : (match buildLoopBT g vertices (scorerImproved g strat) fuel
        [start] [start] start 0 r0 with
      | none => none
      | some res => some ((res.1.1, res.1.2.reverse), res.2)) = some out) :
    GoodResult g vertices out.1 := by
  cases hbt : buildLoopBT g vertices (scorerImproved g strat) fuel
      [start] [start] start 0 r0 with
  | none => rw [hbt] at hsome; exact Option.noConfusion hsome
  | some res =>
    rw [hbt] at hsome
    have hout : ((res.1.1, res.1.2.reverse), res.2) = out :=
      Option.some.inj hsome
    rw [← hout]
    exact (buildLoopBT_good hwf hd _ _ _ _ _ _ _ _ (BInv_init hs) hbt).toResult

theorem greedy_path_from_start_improved_good {g : Graph}
    {vertices : List String} (hwf : WellFormed vertices g) (hd : DictLike g)
    {start : String} (hs : start ∈ vertices) (fuel : Nat) (seed : Option ℤ)
    (strat : Strategy) (r : RNG) {out : (ℚ × List String) × RNG}
    (hsome : greedy_path_from_start_improved fuel start g vertices seed strat r
      = some out) : GoodResult g vertices out.1 := by
  cases seed with
  | none => exact improved_wrap_good hwf hd hs fuel strat r hsome
  | some s => exact improved_wrap_good hwf hd hs fuel strat (mkRNG s) hsome

/-! ## Driver-level invariant: the running best -/

/-- Invariant of a driver's `(max_length, best_path)` accumulator: it is the
initial `(0, [])`, or a strictly positive length together with a valid simple
path of that exact weight and at least two vertices. -/
def GoodBest (g : Graph) (vertices : List String) (b : ℚ × List String) : Prop :=
  b = (0, []) ∨
    (0 < b.1 ∧ validPath vertices g b.2 ∧ b.1 = pathWeight g b.2 ∧ 2 ≤ b.2.length)

theorem GoodBest.nonneg {g : Graph} {vertices : List String}
    {b : ℚ × List String} (h : GoodBest g vertices b) : 0 ≤ b.1 := by
  rcases h with rfl | ⟨h1, _⟩
  · exact le_refl 0
  · exact le_of_lt h1

theorem GoodBest.weight_eq {g : Graph} {vertices : List String}
    {b : ℚ × List String} (h : GoodBest g vertices b) :
    b.1 = pathWeight g b.2 := by
  rcases h with rfl | ⟨_, _, h3, _⟩
  · rfl
  · exact h3

theorem GoodBest.valid {g : Graph} {vertices : List String}
    {b : ℚ × List String} (h : GoodBest g vertices b) :
    validPath vertices g b.2 := by
  rcases h with rfl | ⟨_, h2, _⟩
  · exact ⟨fun v hv => absurd hv (List.not_mem_nil v), List.chain'_nil,
      List.nodup_nil⟩
  · exact h2

theorem GoodBest.two_le {g : Graph} {vertices : List String}
    {b : ℚ × List String} (h : GoodBest g vertices b) (hne : b.2 ≠ []) :
    2 ≤ b.2.length := by
  rcases h with rfl | ⟨_, _, _, h4⟩
  · exact absurd rfl hne
  · exact h4

theorem GoodBest.eq_zero {g : Graph} {vertices : List String}
    {b : ℚ × List String} (h : GoodBest g vertices b)
    (hnp : ∀ p, validPath vertices g p → pathWeight g p ≤ 0) : b = (0, []) := by
  rcases h with rfl | ⟨h1, h2, h3, _⟩
  · rfl
  · exact absurd (h3 ▸ hnp b.2 h2) (not_le.mpr h1)

theorem updateBest_good {g : Graph} {vertices : List String}
    {b res : ℚ × List String} (hb : GoodBest g vertices b)
    (hres : GoodResult g vertices res) :
    GoodBest g vertices (updateBest res.1 res.2 b) := by
  unfold updateBest
  by_cases h : b.1 < res.1
  · rw [if_pos h]
    right
    have hpos : 0 < res.1 := lt_of_le_of_lt hb.nonneg h
    obtain ⟨hvalid, hw, hne⟩ := hres
    refine ⟨hpos, hvalid, hw, ?_⟩
    cases hres2 : res.2 with
    | nil => exact absurd hres2 hne
    | cons x t =>
      cases t with
      | nil =>
        rw [hres2] at hw
        rw [pathWeight_singleton] at hw
        exact absurd (hw ▸ hpos) (lt_irrefl 0)
      | cons y t2 => simp
  · rw [if_neg h]
    exact hb

theorem randSample_subset {α : Type} [Inhabited α] :
    ∀ (k : Nat) (s : RNG) (l : List α), (randSample s k l).1 ⊆ l := by
  intro k
  induction k with
  | zero => intro s l; simp [randSample]
  | succ n ih =>
    intro s l
    by_cases he : l.isEmpty = true
    · simp [randSample, he]
    · simp only [randSample, he, if_false]
      intro x hx
      rcases List.mem_cons.mp hx with rfl | hx2
      · have hl : 0 < l.length := by
          cases l with
          | nil => simp at he
          | cons a t => simp
        have hi : rngNext s % l.length < l.length := Nat.mod_lt _ hl
        rw [List.getD_eq_getElem l default hi]
        exact List.getElem_mem hi
      · exact (List.eraseIdx_subset _ _) (ih _ _ hx2)

/-- The inner start × seed loop of the baseline driver preserves `GoodBest`,
for an arbitrary list of starting vertices drawn from the graph. -/
theorem approx_outer_good {g : Graph} {vertices : List String}
    (hwf : WellFormed vertices g) (hd : DictLike g) (starts : List String)
    (hsub : ∀ s ∈ starts, s ∈ vertices) (num_seeds : Nat) (seedBase : ℤ)
    (init : (ℚ × List String) × RNG) (hinit : GoodBest g vertices init.1) :
    GoodBest g vertices ((starts.enum.foldl
      (fun (acc : (ℚ × List String) × RNG) p =>
        (List.range num_seeds).foldl
          (fun (acc : (ℚ × List String) × RNG) (offset : ℕ) =>
            let seed : ℤ := seedBase + (p.1 : ℤ) * 1000 + (offset : ℤ)
            let r1 := greedy_path_from_start p.2 g (some seed) .greedy acc.2
            let b1 := updateBest r1.1.1 r1.1.2 acc.1
            let r2 := greedy_path_from_start p.2 g (some seed) .lookahead r1.2
            (updateBest r2.1.1 r2.1.2 b1, r2.2))
          acc)
      init).1) := by
  refine foldl_preserve (fun (acc : (ℚ × List String) × RNG) => GoodBest g vertices acc.1) _ _ _ hinit ?_
  intro acc p hp hacc
  have hstart : p.2 ∈ vertices := hsub p.2 (List.snd_mem_of_mem_enum hp)
  refine foldl_preserve (fun (acc : (ℚ × List String) × RNG) => GoodBest g vertices acc.1) _ _ _ hacc ?_
  intro acc2 offset _ hacc2
  exact updateBest_good
    (updateBest_good hacc2 (greedy_path_from_start_good hwf hd hstart _ _ _))
    (greedy_path_from_start_good hwf hd hstart _ _ _)

/-- The selected start list of either driver is drawn from the vertex list,
whichever branch selected it. -/
theorem startsR_subset (vertices : List String) (r : RNG) (c : Prop)
    [Decidable c] (r0 : RNG) (k : Nat) :
    ∀ s ∈ (if c then (vertices, r) else randSample r0 k vertices).1,
      s ∈ vertices := by
  intro s hs
  by_cases hc : c
  · rw [if_pos hc] at hs
    exact hs
  · rw [if_neg hc] at hs
    exact randSample_subset _ _ _ hs

/-- The baseline driver's best is always a `GoodBest` (the key lemma behind
validity, self-consistency, non-negativity and dominance for
`find_longest_path_approx`). -/
theorem find_longest_path_approx_good {g : Graph} {vertices : List String}
    (hwf : WellFormed vertices g) (hd : DictLike g) (ns : Option Nat)
    (rs : Option ℤ) (r : RNG) :
    GoodBest g vertices (find_longest_path_approx vertices g ns rs r).1 := by
  unfold find_longest_path_approx
  by_cases hv : vertices.isEmpty = true
  · rw [if_pos hv]
    exact Or.inl rfl
  · rw [if_neg hv]
    exact approx_outer_good hwf hd _ (startsR_subset vertices r _ _ _) _ _ _
      (Or.inl rfl)

theorem improved_select_starts_subset (vl : List String) (n ns : Nat)
    (rs : Option ℤ) (r : RNG) :
    ∀ s ∈ (improved_select_starts vl n ns rs r).1, s ∈ vl := by
  intro s hs
  unfold improved_select_starts at hs
  by_cases hc : n ≤ ns
  · rw [if_pos hc] at hs
    exact hs
  · rw [if_neg hc] at hs
    by_cases hre : (vl.filter (fun v => !(vl.take ns).contains v)).isEmpty = true
    · rw [if_pos hre] at hs
      exact List.take_subset _ _ hs
    · rw [if_neg hre] at hs
      rcases List.mem_append.mp hs with h1 | h1
      · exact List.take_subset _ _ h1
      · exact (List.mem_filter.mp (randSample_subset _ _ _ h1)).1

theorem improved_attempt_good {g : Graph} {vertices : List String}
    (hwf : WellFormed vertices g) (hd : DictLike g) (fuel : Nat) (isp : Bool)
    {start : String} (hs : start ∈ vertices) (seed : ℤ)
    {st out : (ℚ × List String) × RNG} (hb : GoodBest g vertices st.1)
    (heq : improved_attempt fuel g vertices isp start seed st = some out) :
    GoodBest g vertices out.1 := by
  unfold improved_attempt at heq
  cases isp with
  | true =>
    rw [if_pos rfl] at heq
    have hout := Option.some.inj heq
    rw [← hout]
    exact updateBest_good
      (updateBest_good hb (greedy_path_highweight_priority_good hwf hd hs _ _))
      (greedy_path_connect_highweight_edges_good hwf hd hs _ _)
  | false =>
    rw [if_neg (by simp)] at heq
    cases h1 : greedy_path_from_start_improved fuel start g vertices
        (some seed) .greedy st.2 with
    | none => rw [h1] at heq; exact Option.noConfusion heq
    | some r1 =>
      simp only [h1] at heq
      cases h2 : greedy_path_from_start_improved fuel start g vertices
          (some seed) .lookahead r1.2 with
      | none => rw [h2] at heq; exact Option.noConfusion heq
      | some r2 =>
        simp only [h2] at heq
        cases h3 : greedy_path_from_start_improved fuel start g vertices
            (some seed) .lookahead2 r2.2 with
        | none => rw [h3] at heq; exact Option.noConfusion heq
        | some r3 =>
          simp only [h3] at heq
          have hout := Option.some.inj heq
          rw [← hout]
          refine updateBest_good
            (updateBest_good
              (updateBest_good
                (updateBest_good hb
                  (greedy_path_from_start_improved_good hwf hd hs fuel _ _ _ h1))
                (greedy_path_from_start_improved_good hwf hd hs fuel _ _ _ h2))
              (greedy_path_from_start_improved_good hwf hd hs fuel _ _ _ h3))
            (greedy_path_highweight_priority_good hwf hd hs _ _)

/-- The improved driver's best, whenever the run completes within its fuel,
is a `GoodBest`. -/
theorem find_longest_path_approx_improved_good {g : Graph}
    {vertices : List String} (hwf : WellFormed vertices g) (hd : DictLike g)
    (fuel : Nat) (ns : Option Nat) (rs : Option ℤ) (r : RNG)
    {st : (ℚ × List String) × RNG}
    (heq : find_longest_path_approx_improved fuel vertices g ns rs r = some st) :
    GoodBest g vertices st.1 := by
  unfold find_longest_path_approx_improved at heq
  by_cases hv : vertices.isEmpty = true
  · rw [if_pos hv] at heq
    have hout := Option.some.inj heq
    rw [← hout]
    exact Or.inl rfl
  · rw [if_neg hv] at heq
    refine foldl_preserve (fun (acc : Option ((ℚ × List String) × RNG)) =>
      ∀ st', acc = some st' → GoodBest g vertices st'.1) _ _ _ ?_ ?_ st heq
    · intro st' h
      have hout := Option.some.inj h
      rw [← hout]
      exact Or.inl rfl
    · intro acc p hp hPacc
      have hstart : p.2 ∈ vertices := by
        have h2 := List.snd_mem_of_mem_enum hp
        have hvl : ∀ x ∈ sortByDesc (fun v => (adj g v).length) vertices,
            x ∈ vertices :=
          fun x hx => (sortByDesc_perm _ _).subset hx
        split at h2
        · exact hvl _ h2
        · exact hvl _ (improved_select_starts_subset _ _ _ _ _ _ h2)
      refine foldl_preserve (fun (acc : Option ((ℚ × List String) × RNG)) =>
        ∀ st', acc = some st' → GoodBest g vertices st'.1) _ _ _ hPacc ?_
      intro acc2 offset _ hPacc2
      intro st' heq2
      cases acc2 with
      | none => exact Option.noConfusion heq2
      | some st0 =>
        exact improved_attempt_good hwf hd fuel _ hstart _
          (hPacc2 st0 rfl) heq2

/-! ## Exact solver: invariant and completeness -/

/-- Invariant of the exact `dfs` state: the reversed path is a simple chain
of existing edges ending at `current`, of total weight `len`, with all its
vertices in the graph. -/
def DInv (g : Graph) (vertices pathRev : List String) (current : String)
    (len : ℚ) : Prop :=
  pathRev.head? = some current ∧ pathRev.Nodup ∧
  List.Chain' (fun b a => edgeEx g a b = true) pathRev ∧
  len = revWeight g pathRev ∧ (∀ v ∈ pathRev, v ∈ vertices)

theorem DInv.goodRun {g : Graph} {vertices pathRev : List String}
    {current : String} {len : ℚ} (h : DInv g vertices pathRev current len) :
    GoodRun g vertices (len, pathRev) := by
  obtain ⟨h1, h2, h3, h4, h5⟩ := h
  refine ⟨?_, h2, h3, h4, h5⟩
  intro he
  have he2 : pathRev = [] := he
  rw [he2] at h1
  exact Option.noConfusion h1

theorem DInv_extend {g : Graph} {vertices pathRev : List String}
    {current : String} {len : ℚ} (hwf : WellFormed vertices g)
    (hd : DictLike g) (hinv : DInv g vertices pathRev current len)
    {nw : String × ℚ} (hmem : nw ∈ adj g current) (hnp : nw.1 ∉ pathRev) :
    DInv g vertices (nw.1 :: pathRev) nw.1 (len + nw.2) := by
  obtain ⟨hhead, hnd, hchain, hlen, hsub⟩ := hinv
  obtain ⟨rest, rfl⟩ : ∃ rest, pathRev = current :: rest := by
    cases pathRev with
    | nil => exact Option.noConfusion hhead
    | cons a l =>
      have ha : a = current := by simpa using hhead
      exact ⟨l, by rw [ha]⟩
  have hmem2 : (nw.1, nw.2) ∈ adj g current := by simpa using hmem
  refine ⟨rfl, List.nodup_cons.mpr ⟨hnp, hnd⟩, ?_, ?_, ?_⟩
  · exact List.chain'_cons.mpr ⟨edgeEx_of_mem hmem2, hchain⟩
  · have hw : edgeWeight g current nw.1 = some nw.2 :=
      edgeWeight_eq_of_mem hd hmem2
    simp only [revWeight, hw]
    rw [← hlen]
    simp
  · intro v hv
    rcases List.mem_cons.mp hv with rfl | hv2
    · exact adj_mem_vertices hwf hmem2
    · exact hsub v hv2

theorem updateBest_fst_le (len : ℚ) (path : List String) (b : ℚ × List String) :
    b.1 ≤ (updateBest len path b).1 := by
  unfold updateBest
  by_cases h : b.1 < len
  · rw [if_pos h]
    exact le_of_lt h
  · rw [if_neg h]

theorem updateBest_fst_ge_len (len : ℚ) (path : List String)
    (b : ℚ × List String) : len ≤ (updateBest len path b).1 := by
  unfold updateBest
  by_cases h : b.1 < len
  · rw [if_pos h]
  · rw [if_neg h]
    exact le_of_not_lt h

theorem dfs_good {g : Graph} {vertices : List String}
    (hwf : WellFormed vertices g) (hd : DictLike g) :
    ∀ (fuel : Nat) (current : String) (pathRev : List String) (len : ℚ)
      (best : ℚ × List String), DInv g vertices pathRev current len →
      GoodBest g vertices best →
      GoodBest g vertices (dfs g fuel current pathRev len best) := by
  intro fuel
  induction fuel with
  | zero => intro current pathRev len best _ hb; exact hb
  | succ n ih =>
    intro current pathRev len best hinv hb
    simp only [dfs]
    refine foldl_preserve (fun b => GoodBest g vertices b) _ _ _ ?_ ?_
    · exact updateBest_good hb hinv.goodRun.toResult
    · intro b nw hnw hgb
      by_cases hc : pathRev.contains nw.1 = true
      · rw [if_pos hc]
        exact hgb
      · rw [if_neg hc]
        have hnp : nw.1 ∉ pathRev := by
          intro hm
          exact hc (by simpa using hm)
        exact ih nw.1 (nw.1 :: pathRev) (len + nw.2) b
          (DInv_extend hwf hd hinv hnw hnp) hgb

theorem DInv_init {g : Graph} {vertices : List String} {start : String}
    (hs : start ∈ vertices) : DInv g vertices [start] start 0 := by
  refine ⟨rfl, List.nodup_singleton _, List.chain'_singleton _, rfl, ?_⟩
  intro v hv
  rcases List.mem_singleton.mp hv with rfl
  exact hs

/-- The exact solver's result satisfies the running-best invariant. -/
theorem find_longest_path_good {vertices : List String} {g : Graph}
    (hwf : WellFormed vertices g) (hd : DictLike g) :
    GoodBest g vertices (find_longest_path vertices g) := by
  unfold find_longest_path
  by_cases hv : vertices.isEmpty = true
  · rw [if_pos hv]
    exact Or.inl rfl
  · rw [if_neg hv]
    refine foldl_preserve (fun b => GoodBest g vertices b) _ _ _ (Or.inl rfl) ?_
    intro b start hstart hgb
    exact dfs_good hwf hd _ start [start] 0 b (DInv_init hstart) hgb

theorem dfs_fst_mono (g : Graph) :
    ∀ (fuel : Nat) (current : String) (pathRev : List String) (len : ℚ)
      (best : ℚ × List String),
      best.1 ≤ (dfs g fuel current pathRev len best).1 := by
  intro fuel
  induction fuel with
  | zero => intro current pathRev len best; exact le_refl _
  | succ n ih =>
    intro current pathRev len best
    simp only [dfs]
    refine le_trans (updateBest_fst_le len pathRev.reverse best) ?_
    refine le_foldl_fst _ _ _ ?_
    intro b nw _
    by_cases hc : pathRev.contains nw.1 = true
    · rw [if_pos hc]
    · rw [if_neg hc]
      exact ih nw.1 (nw.1 :: pathRev) (len + nw.2) b

theorem dfs_fst_ge_len (g : Graph) (n : Nat) (current : String)
    (pathRev : List String) (len : ℚ) (best : ℚ × List String) :
    len ≤ (dfs g (n + 1) current pathRev len best).1 := by
  simp only [dfs]
  refine le_trans (updateBest_fst_ge_len len pathRev.reverse best) ?_
  refine le_foldl_fst _ _ _ ?_
  intro b nw _
  by_cases hc : pathRev.contains nw.1 = true
  · rw [if_pos hc]
  · rw [if_neg hc]
    exact dfs_fst_mono g n nw.1 (nw.1 :: pathRev) (len + nw.2) b

/-- Completeness of the exact DFS: with enough fuel it visits every simple
extension of the current path, so its best is at least the weight of any
chain of unvisited vertices continuing from `current`. -/
theorem dfs_reaches {g : Graph} :
    ∀ (q : List String) (fuel : Nat) (current : String)
      (pathRev : List String) (len : ℚ) (best : ℚ × List String),
      q.length + 1 ≤ fuel →
      List.Chain' (fun u v => edgeEx g u v = true) (current :: q) →
      q.Nodup → (∀ x ∈ q, x ∉ pathRev) →
      len + pathWeight g (current :: q) ≤
        (dfs g fuel current pathRev len best).1 := by
  intro q
  induction q with
  | nil =>
    intro fuel current pathRev len best hfuel _ _ _
    obtain ⟨m, rfl⟩ : ∃ m, fuel = m + 1 := by
      cases fuel with
      | zero => exact absurd hfuel (by simp)
      | succ m => exact ⟨m, rfl⟩
    have h0 : pathWeight g [current] = 0 := rfl
    rw [h0, add_zero]
    exact dfs_fst_ge_len g m current pathRev len best
  | cons v q' ih =>
    intro fuel current pathRev len best hfuel hchain hnd hdisj
    obtain ⟨m, rfl⟩ : ∃ m, fuel = m + 1 := by
      cases fuel with
      | zero => exact absurd hfuel (by simp)
      | succ m => exact ⟨m, rfl⟩
    have hm : q'.length + 1 ≤ m := by
      have := hfuel
      simpa using this
    obtain ⟨hedge, hchain2⟩ := List.chain'_cons.mp hchain
    obtain ⟨w, hw, hmem⟩ := edgeEx_elim hedge
    have hvnp : v ∉ pathRev := hdisj v (List.mem_cons_self _ _)
    have hvc : pathRev.contains v = false := by
      cases hb : pathRev.contains v with
      | false => rfl
      | true => exact absurd (by simpa using hb) hvnp
    simp only [dfs]
    have ht : len + pathWeight g (current :: v :: q') =
        (len + w) + pathWeight g (v :: q') := by
      have : pathWeight g (current :: v :: q') =
          ((edgeWeight g current v).getD 0) + pathWeight g (v :: q') := rfl
      rw [this, hw]
      simp
      ring
    rw [ht]
    refine foldl_fst_ge_of_mem _ _ _ (v, w) hmem ?_ ?_ _
    · intro b nw _
      by_cases hc : pathRev.contains nw.1 = true
      · rw [if_pos hc]
      · rw [if_neg hc]
        exact dfs_fst_mono g m nw.1 (nw.1 :: pathRev) (len + nw.2) b
    · intro b
      rw [if_neg (by intro hT; exact hvnp (by simpa using hT))]
      refine ih m v (v :: pathRev) (len + w) b hm hchain2
        (List.nodup_cons.mp hnd).2 ?_
      intro x hx
      intro hxm
      rcases List.mem_cons.mp hxm with rfl | hxp
      · exact (List.nodup_cons.mp hnd).1 hx
      · exact hdisj x (List.mem_cons_of_mem _ hx) hxp

/-- The exact solver dominates the weight of every valid simple path. -/
theorem find_longest_path_ge {vertices : List String} {g : Graph}
    {p : List String} (hp : validPath vertices g p) (hne : p ≠ []) :
    pathWeight g p ≤ (find_longest_path vertices g).1 := by
  obtain ⟨h, q, rfl⟩ : ∃ h q, p = h :: q := by
    cases p with
    | nil => exact absurd rfl hne
    | cons h q => exact ⟨h, q, rfl⟩
  obtain ⟨hsub, hchain, hnd⟩ := hp
  have hhv : h ∈ vertices := hsub h (List.mem_cons_self _ _)
  have hvne : ¬ vertices.isEmpty = true := by
    cases vertices with
    | nil => exact absurd hhv (List.not_mem_nil h)
    | cons a t => simp
  unfold find_longest_path
  rw [if_neg hvne]
  have hlen : q.length + 1 ≤ vertices.length := by
    have hsp : (h :: q).Subperm vertices := hnd.subperm hsub
    simpa using hsp.length_le
  refine foldl_fst_ge_of_mem _ _ _ h hhv ?_ ?_ _
  · intro b x _
    exact dfs_fst_mono g vertices.length x [x] 0 b
  · intro b
    have := dfs_reaches q vertices.length h [h] 0 b hlen hchain
      (List.nodup_cons.mp hnd).2 ?_
    · simpa using this
    · intro x hx hxm
      rcases List.mem_singleton.mp hxm with rfl
      exact (List.nodup_cons.mp hnd).1 hx

/-! ## Non-termination of the improved builder's backtrack repair -/

/-- A four-vertex graph (edges a-b = 10, b-c = 1, a-d = 2, as read by
`read_graph`) on which the improved builder's one-step backtrack repair
loops forever: from `a` the greedy choice is `b`, then the dead end `c`;
the repair pops `c`, but `c` is then the only candidate at `b` again. -/
def trapGraph : Graph :=
  [("a", [("b", 10), ("d", 2)]), ("b", [("a", 10), ("c", 1)]),
   ("c", [("b", 1)]), ("d", [("a", 2)])]

/-- The vertex set of `trapGraph` (so the graph is well-formed). -/
def trapVertices : List String := ["a", "b", "c", "d"]

theorem randChoice_singleton {α : Type} [Inhabited α] (r : RNG) (x : α) :
    randChoice r [x] = (x, rngNext r) := by
  unfold randChoice
  simp [Nat.mod_one]

/-- When the tie set is a singleton, `random.choice` returns its element
whatever the generator state is. -/
theorem pickStep_eq (r : RNG) (cands : List (ℚ × ℚ × String))
    (c : ℚ × ℚ × String)
    (h : (sortByDesc (fun c => c.1) cands).filter
        (fun x => |x.1 - ((sortByDesc (fun c => c.1) cands).headD (0, 0, "")).1|
          < tol) = [c]) :
    pickStep r cands = ((c.2.1, c.2.2), rngNext r) := by
  unfold pickStep
  simp only [h, randChoice_singleton]

theorem trap_stepB (n : Nat) (r : RNG) :
    buildLoopBT trapGraph trapVertices scoreGreedy (n + 1)
      ["b", "a"] ["b", "a"] "b" 10 r =
    buildLoopBT trapGraph trapVertices scoreGreedy n
      ["c", "b", "a"] ["c", "b", "a"] "c" 11 (rngNext r) := by
  have hc : candidatesOf trapGraph scoreGreedy ["b", "a"] "b"
      = [(1, 1, "c")] := rfl
  have hp : pickStep r [((1:ℚ), (1:ℚ), "c")] = ((1, "c"), rngNext r) :=
    pickStep_eq r [((1:ℚ), (1:ℚ), "c")] ((1:ℚ), (1:ℚ), "c")
      (by norm_num [sortByDesc, insertByDesc, List.filter_cons, tol])
  simp only [buildLoopBT, hc, hp, List.isEmpty_cons, Bool.false_eq_true,
    if_false]
  norm_num

theorem trap_stepC (n : Nat) (r : RNG) :
    buildLoopBT trapGraph trapVertices scoreGreedy (n + 1)
      ["c", "b", "a"] ["c", "b", "a"] "c" 11 r =
    buildLoopBT trapGraph trapVertices scoreGreedy n
      ["b", "a"] ["b", "a"] "b" 10 r := by
  have hc : candidatesOf trapGraph scoreGreedy ["c", "b", "a"] "c"
      = [] := rfl
  have hw : (edgeWeight trapGraph "b" "c").getD 0 = 1 := rfl
  simp only [buildLoopBT, hc, List.isEmpty_nil, if_true, hw]
  norm_num [trapVertices]

theorem trap_step0 (n : Nat) (r : RNG) :
    buildLoopBT trapGraph trapVertices scoreGreedy (n + 1) ["a"] ["a"] "a" 0 r =
    buildLoopBT trapGraph trapVertices scoreGreedy n
      ["b", "a"] ["b", "a"] "b" 10 (rngNext r) := by
  have hc : candidatesOf trapGraph scoreGreedy ["a"] "a"
      = [(10, 10, "b"), (2, 2, "d")] := rfl
  have hp : pickStep r [((10:ℚ), (10:ℚ), "b"), ((2:ℚ), (2:ℚ), "d")]
      = ((10, "b"), rngNext r) :=
    pickStep_eq r [((10:ℚ), (10:ℚ), "b"), ((2:ℚ), (2:ℚ), "d")]
      ((10:ℚ), (10:ℚ), "b")
      (by norm_num [sortByDesc, insertByDesc, List.filter_cons, tol])
  simp only [buildLoopBT, hc, hp, List.isEmpty_cons, Bool.false_eq_true,
    if_false]
  norm_num

/-- The two-state cycle of the repair loop on `trapGraph`: at `b` the only
candidate is the dead end `c`; at `c` the repair undoes the step and returns
to `b` with the same visited set, so no fuel is ever enough. -/
theorem trap_loops : ∀ (fuel : Nat) (r : RNG),
    buildLoopBT trapGraph trapVertices scoreGreedy fuel
      ["b", "a"] ["b", "a"] "b" 10 r = none ∧
    buildLoopBT trapGraph trapVertices scoreGreedy fuel
      ["c", "b", "a"] ["c", "b", "a"] "c" 11 r = none := by
  intro fuel
  induction fuel with
  | zero => intro r; exact ⟨rfl, rfl⟩
  | succ n ih =>
    intro r
    exact ⟨(trap_stepB n r).trans (ih (rngNext r)).2,
      (trap_stepC n r).trans (ih r).1⟩

/-! ## The HighWeightPriority threshold and the EdgeClusterPriority top set -/

/-- A three-edge graph (a-b = 10, b-c = 5, c-d = 1) with three distinct
edge weights, separating the code's threshold from the spec's reading. -/
def threeEdgeGraph : Graph :=
  [("a", [("b", 10)]), ("b", [("a", 10), ("c", 5)]),
   ("c", [("b", 5), ("d", 1)]), ("d", [("c", 1)])]

/-- Modelled from the claim's words, for comparison with the code: the
3rd-largest DISTINCT edge weight occurring in the whole graph, or the
largest when fewer than 3 distinct weights exist. -/
def thresholdSpecDistinct (g : Graph) : ℚ :=
  let distinct := (sortByDesc id (allWeights g)).dedup
  if distinct.isEmpty then 0
  else if 3 ≤ distinct.length then distinct.getD 2 0 else distinct.getD 0 0

/-- The amended reading of the threshold, stated independently of the code's
insertion sort: entry number 2 (0-based) of the multiset of all adjacency
weight entries sorted descending — duplicates kept and each undirected edge
counted once per direction — or its largest entry when it has fewer than 3
entries (0 when none). -/
def thresholdThirdLargest (g : Graph) : ℚ :=
  let l := Multiset.sort (fun a b : ℚ => a ≥ b) (allWeights g)
  if 3 ≤ l.length then l.getD 2 0 else l.getD 0 0

theorem sortByDesc_id_eq_multiset_sort (l : List ℚ) :
    sortByDesc id l = Multiset.sort (fun a b : ℚ => a ≥ b) (l : Multiset ℚ) := by
  refine List.eq_of_perm_of_sorted (r := fun a b : ℚ => a ≥ b) ?_ ?_ ?_
  · exact (sortByDesc_perm id l).trans
      (Multiset.coe_eq_coe.mp (Multiset.sort_eq (fun a b : ℚ => a ≥ b)
        (l : Multiset ℚ))).symm
  · exact sortByDesc_sorted id l
  · exact Multiset.sort_sorted _ _

theorem threshold_eq_thirdLargest (g : Graph) :
    high_weight_threshold g = thresholdThirdLargest g := by
  unfold high_weight_threshold thresholdThirdLargest
  by_cases h : (allWeights g).isEmpty = true
  · rw [if_pos h]
    have hl : allWeights g = [] := by
      cases hc : allWeights g with
      | nil => rfl
      | cons x xs => rw [hc] at h; exact absurd h (by simp)
    rw [hl]
    simp [Multiset.sort_zero]
  · rw [if_neg h, sortByDesc_id_eq_multiset_sort]

/-- A six-edge path graph (weights 1..6), exceeding the claimed top-5 cut. -/
def sixEdgeGraph : Graph :=
  [("a", [("b", 1)]), ("b", [("a", 1), ("c", 2)]), ("c", [("b", 2), ("d", 3)]),
   ("d", [("c", 3), ("e", 4)]), ("e", [("d", 4), ("f", 5)]),
   ("f", [("e", 5), ("g", 6)]), ("g", [("f", 6)])]

/-- The list `top_edges` keeps the whole edge list: `take (max 5 len)` never cuts. -/
theorem top_edges_perm (g : Graph) : (top_edges g).Perm (all_edges g) := by
  unfold top_edges
  rw [List.take_of_length_le (le_max_right 5 _)]
  exact sortByDesc_perm _ _

/-- Consequently every edge of the graph is a "top" edge and receives the
+50% bonus test positively. -/
theorem all_edges_isTopEdge {g : Graph} {u v : String} {w : ℚ}
    (h : (u, v, w) ∈ all_edges g) : isTopEdge (top_edges g) u v = true := by
  unfold isTopEdge
  refine List.any_eq_true.mpr ⟨(u, v, w), (top_edges_perm g).symm.subset h, ?_⟩
  simp

/-! ## Determinism given a seed -/
theorem foldl_pair_all_indep {α β : Type} (f : (α × RNG) → β → (α × RNG))
    (hf : ∀ a r1 r2 x, f (a, r1) x = f (a, r2) x) (l : List β) (hl : l ≠ [])
    (a : α) (r1 r2 : RNG) :
    List.foldl f (a, r1) l = List.foldl f (a, r2) l := by
  cases l with
  | nil => exact absurd rfl hl
  | cons x xs =>
    simp only [List.foldl_cons]
    rw [hf a r1 r2 x]

theorem foldl_pair_fst_indep {α β : Type} (f : (α × RNG) → β → (α × RNG))
    (hf : ∀ a r1 r2 x, f (a, r1) x = f (a, r2) x) (l : List β)
    (a : α) (r1 r2 : RNG) :
    (List.foldl f (a, r1) l).1 = (List.foldl f (a, r2) l).1 := by
  cases l with
  | nil => rfl
  | cons x xs =>
    simp only [List.foldl_cons]
    rw [hf a r1 r2 x]

theorem find_longest_path_approx_deterministic (vertices : List String)
    (g : Graph) (ns : Option Nat) (s : ℤ) (r1 r2 : RNG) :
    (find_longest_path_approx vertices g ns (some s) r1).1 =
    (find_longest_path_approx vertices g ns (some s) r2).1 := by
  unfold find_longest_path_approx
  by_cases hv : vertices.isEmpty = true
  · rw [if_pos hv, if_pos hv]
  · rw [if_neg hv, if_neg hv]
    dsimp only
    have hrange : List.range (if vertices.length ≤ 20 then 30 else
        if vertices.length ≤ 50 then 20 else if vertices.length ≤ 100 then 15
        else 10) ≠ [] := by
      rw [Ne, List.range_eq_nil]
      split
      · norm_num
      · split
        · norm_num
        · split
          · norm_num
          · norm_num
    by_cases hc : vertices.length ≤ (match ns with
      | some k => k
      | none => if vertices.length ≤ 100 then vertices.length
        else if vertices.length ≤ 200 then min 150 vertices.length
        else min 200 vertices.length)
    · rw [if_pos hc, if_pos hc]
      refine foldl_pair_fst_indep _ ?_ _ _ _ _
      intro a ρ1 ρ2 p
      refine foldl_pair_all_indep _ ?_ _ hrange a ρ1 ρ2
      intro b σ1 σ2 off
      rfl
    · rw [if_neg hc, if_neg hc]

theorem foldl_opt_none {β : Type}
    (f : Option ((ℚ × List String) × RNG) → β → Option ((ℚ × List String) × RNG))
    (hnone : ∀ x, f none x = none) :
    ∀ l : List β, List.foldl f none l = none := by
  intro l
  induction l with
  | nil => rfl
  | cons x xs ih =>
    simp only [List.foldl_cons, hnone]
    exact ih

theorem foldl_opt_all_indep {β : Type}
    (f : Option ((ℚ × List String) × RNG) → β → Option ((ℚ × List String) × RNG))
    (hf : ∀ b r1 r2 x, f (some (b, r1)) x = f (some (b, r2)) x)
    (l : List β) (hl : l ≠ []) (b : ℚ × List String) (r1 r2 : RNG) :
    List.foldl f (some (b, r1)) l = List.foldl f (some (b, r2)) l := by
  cases l with
  | nil => exact absurd rfl hl
  | cons x xs =>
    simp only [List.foldl_cons]
    rw [hf b r1 r2 x]

theorem foldl_opt_fst_indep {β : Type}
    (f : Option ((ℚ × List String) × RNG) → β → Option ((ℚ × List String) × RNG))
    (hf : ∀ b r1 r2 x, f (some (b, r1)) x = f (some (b, r2)) x)
    (l : List β) (b : ℚ × List String) (r1 r2 : RNG) :
    (List.foldl f (some (b, r1)) l).map Prod.fst =
    (List.foldl f (some (b, r2)) l).map Prod.fst := by
  cases l with
  | nil => rfl
  | cons x xs =>
    simp only [List.foldl_cons]
    rw [hf b r1 r2 x]

theorem improved_select_starts_fst_indep (vl : List String) (n ns : Nat)
    (s : ℤ) (r1 r2 : RNG) :
    (improved_select_starts vl n ns (some s) r1).1 =
    (improved_select_starts vl n ns (some s) r2).1 := by
  unfold improved_select_starts
  by_cases hc : n ≤ ns
  · rw [if_pos hc, if_pos hc]
  · rw [if_neg hc, if_neg hc]

theorem find_longest_path_approx_improved_deterministic (fuel : Nat)
    (vertices : List String) (g : Graph) (ns : Option Nat) (s : ℤ)
    (r1 r2 : RNG) :
    (find_longest_path_approx_improved fuel vertices g ns (some s) r1).map
      Prod.fst =
    (find_longest_path_approx_improved fuel vertices g ns (some s) r2).map
      Prod.fst := by
  unfold find_longest_path_approx_improved
  by_cases hv : vertices.isEmpty = true
  · rw [if_pos hv, if_pos hv]
    rfl
  · rw [if_neg hv, if_neg hv]
    dsimp only
    rw [improved_select_starts_fst_indep _ _ _ s r1 r2]
    have hrange : List.range (if (decide (9 ≤ vertices.length ∧
        vertices.length ≤ 12 ∧
        (g.foldl (fun acc p => acc + p.2.length) 0) / 2 ≤ 20)) = true then 30
        else if vertices.length ≤ 12 then 15 else if vertices.length ≤ 20
        then 12 else if vertices.length ≤ 50 then 8
        else if vertices.length ≤ 100 then 5 else 3) ≠ [] := by
      rw [Ne, List.range_eq_nil]
      split
      · norm_num
      · split
        · norm_num
        · split
          · norm_num
          · split
            · norm_num
            · split
              · norm_num
              · norm_num
    refine foldl_opt_fst_indep _ ?_ _ _ _ _
    intro b ρ1 ρ2 p
    refine foldl_opt_all_indep _ ?_ _ hrange b ρ1 ρ2
    intro b2 σ1 σ2 off
    rfl

/-! ## Assembly: dominance of the exact solver -/

theorem goodBest_le_exact {vertices : List String} {g : Graph}
    (hwf : WellFormed vertices g) (hd : DictLike g) {b : ℚ × List String}
    (hb : GoodBest g vertices b) :
    b.1 ≤ (find_longest_path vertices g).1 := by
  rcases hb with rfl | ⟨h1, h2, h3, h4⟩
  · exact (find_longest_path_good hwf hd).nonneg
  · have hne : b.2 ≠ [] := by
      intro he
      rw [he] at h4
      simp at h4
    exact le_trans (le_of_eq h3) (find_longest_path_ge h2 hne)

/-! ## Concrete witness graphs -/

/-- A single-edge graph a-b of weight 5 (with both directions stored). -/
def oneEdgeGraph : Graph := [("a", [("b", 5)]), ("b", [("a", 5)])]

/-- A single-edge graph a-b of weight 0: a non-empty graph in which no
simple path of positive weight exists. -/
def zeroEdgeGraph : Graph := [("a", [("b", 0)]), ("b", [("a", 0)])]

/-! ## The claims -/

/-- C1: For every graph and every option setting, the path returned by
ExactSolve and by ApproxSolve (baseline or improved, any scorer, including
after backtrack repair) is a valid simple path: every vertex of the path is
a vertex of the graph, every pair of consecutive vertices in the path is
joined by an edge of the graph, and no vertex occurs twice in the path. -/
theorem C1_paths_valid {vertices : List String} {g : Graph}
    (hwf : WellFormed vertices g) (hd : DictLike g) (start : String)
    (hs : start ∈ vertices) (ns : Option Nat) (rs : Option ℤ)
    (seed : Option ℤ) (strat : Strategy) (r : RNG) (fuel : Nat) :
    validPath vertices g (find_longest_path vertices g).2 ∧
    validPath vertices g (find_longest_path_approx vertices g ns rs r).1.2 ∧
    (∀ st, find_longest_path_approx_improved fuel vertices g ns rs r = some st →
      validPath vertices g st.1.2) ∧
    validPath vertices g (greedy_path_from_start start g seed strat r).1.2 ∧
    validPath vertices g
      (greedy_path_highweight_priority start g vertices seed r).1.2 ∧
    validPath vertices g
      (greedy_path_connect_highweight_edges start g seed r).1.2 ∧
    (∀ out, greedy_path_from_start_improved fuel start g vertices seed strat r
      = some out → validPath vertices g out.1.2) := by
  refine ⟨(find_longest_path_good hwf hd).valid,
    (find_longest_path_approx_good hwf hd ns rs r).valid,
    fun st hst => (find_longest_path_approx_improved_good hwf hd fuel ns rs r hst).valid,
    (greedy_path_from_start_good hwf hd hs seed strat r).1,
    (greedy_path_highweight_priority_good hwf hd hs seed r).1,
    (greedy_path_connect_highweight_edges_good hwf hd hs seed r).1,
    fun out hout =>
      (greedy_path_from_start_improved_good hwf hd hs fuel seed strat r hout).1⟩

/-- C1 witness at the one-edge graph. -/
theorem C1_paths_valid_witness :
    WellFormed ["a", "b"] oneEdgeGraph ∧ DictLike oneEdgeGraph ∧
    "a" ∈ ["a", "b"] ∧
    validPath ["a", "b"] oneEdgeGraph
      (find_longest_path ["a", "b"] oneEdgeGraph).2 ∧
    validPath ["a", "b"] oneEdgeGraph
      (find_longest_path_approx ["a", "b"] oneEdgeGraph none (some 42) 0).1.2 :=
  ⟨by decide, by decide, by decide,
    (C1_paths_valid (by decide) (by decide) "a" (by decide) none (some 42)
      (some 7) Strategy.greedy 0 5).1,
    (C1_paths_valid (by decide) (by decide) "a" (by decide) none (some 42)
      (some 7) Strategy.greedy 0 5).2.1⟩

/-- C2: For every graph, the length returned by ExactSolve and by
ApproxSolve (baseline or improved, any scorer, including when the one-step
backtrack repair fires) equals the sum of the edge weights between
consecutive vertices of the returned path (0 for an empty or single-vertex
path); the builders add the chosen neighbor's direct edge weight, not its
score, to the accumulated length. -/
theorem C2_lengths_self_consistent {vertices : List String} {g : Graph}
    (hwf : WellFormed vertices g) (hd : DictLike g) (start : String)
    (hs : start ∈ vertices) (ns : Option Nat) (rs : Option ℤ)
    (seed : Option ℤ) (strat : Strategy) (r : RNG) (fuel : Nat) :
    (find_longest_path vertices g).1 =
      pathWeight g (find_longest_path vertices g).2 ∧
    (find_longest_path_approx vertices g ns rs r).1.1 =
      pathWeight g (find_longest_path_approx vertices g ns rs r).1.2 ∧
    (∀ st, find_longest_path_approx_improved fuel vertices g ns rs r = some st →
      st.1.1 = pathWeight g st.1.2) ∧
    (greedy_path_from_start start g seed strat r).1.1 =
      pathWeight g (greedy_path_from_start start g seed strat r).1.2 ∧
    (greedy_path_highweight_priority start g vertices seed r).1.1 =
      pathWeight g (greedy_path_highweight_priority start g vertices seed r).1.2 ∧
    (greedy_path_connect_highweight_edges start g seed r).1.1 =
      pathWeight g (greedy_path_connect_highweight_edges start g seed r).1.2 ∧
    (∀ out, greedy_path_from_start_improved fuel start g vertices seed strat r
      = some out → out.1.1 = pathWeight g out.1.2) := by
  refine ⟨(find_longest_path_good hwf hd).weight_eq,
    (find_longest_path_approx_good hwf hd ns rs r).weight_eq,
    fun st hst =>
      (find_longest_path_approx_improved_good hwf hd fuel ns rs r hst).weight_eq,
    (greedy_path_from_start_good hwf hd hs seed strat r).2.1,
    (greedy_path_highweight_priority_good hwf hd hs seed r).2.1,
    (greedy_path_connect_highweight_edges_good hwf hd hs seed r).2.1,
    fun out hout =>
      (greedy_path_from_start_improved_good hwf hd hs fuel seed strat r hout).2.1⟩

/-- C2 witness at the one-edge graph. -/
theorem C2_lengths_self_consistent_witness :
    WellFormed ["a", "b"] oneEdgeGraph ∧ DictLike oneEdgeGraph ∧
    (find_longest_path ["a", "b"] oneEdgeGraph).1 =
      pathWeight oneEdgeGraph (find_longest_path ["a", "b"] oneEdgeGraph).2 ∧
    (find_longest_path_approx ["a", "b"] oneEdgeGraph none (some 42) 0).1.1 =
      pathWeight oneEdgeGraph
        (find_longest_path_approx ["a", "b"] oneEdgeGraph none (some 42) 0).1.2 :=
  ⟨by decide, by decide,
    (C2_lengths_self_consistent (by decide) (by decide) "a" (by decide) none
      (some 42) (some 7) Strategy.greedy 0 5).1,
    (C2_lengths_self_consistent (by decide) (by decide) "a" (by decide) none
      (some 42) (some 7) Strategy.greedy 0 5).2.1⟩

/-- C3: For every well-formed graph and every choice of ApproxSolve options,
the length returned by ExactSolve is greater than or equal to the length
returned by ApproxSolve (baseline; and improved whenever it completes). -/
theorem C3_exact_dominates {vertices : List String} {g : Graph}
    (hwf : WellFormed vertices g) (hd : DictLike g) (ns : Option Nat)
    (rs : Option ℤ) (r : RNG) (fuel : Nat) :
    (find_longest_path_approx vertices g ns rs r).1.1 ≤
      (find_longest_path vertices g).1 ∧
    ∀ st, find_longest_path_approx_improved fuel vertices g ns rs r = some st →
      st.1.1 ≤ (find_longest_path vertices g).1 := by
  refine ⟨goodBest_le_exact hwf hd (find_longest_path_approx_good hwf hd ns rs r),
    fun st hst => goodBest_le_exact hwf hd
      (find_longest_path_approx_improved_good hwf hd fuel ns rs r hst)⟩

/-- C3 witness at the one-edge graph. -/
theorem C3_exact_dominates_witness :
    WellFormed ["a", "b"] oneEdgeGraph ∧ DictLike oneEdgeGraph ∧
    (find_longest_path_approx ["a", "b"] oneEdgeGraph none (some 42) 0).1.1 ≤
      (find_longest_path ["a", "b"] oneEdgeGraph).1 :=
  ⟨by decide, by decide,
    (C3_exact_dominates (by decide) (by decide) none (some 42) 0 5).1⟩

/-- C4 (refuted — code bug): the improved Heuristic Path Builder does NOT
always terminate.  On the well-formed graph a-b = 10, b-c = 1, a-d = 2,
starting from `a` with the plain greedy strategy and any seed, the one-step
backtrack repair re-enters the dead end `c` forever: for every fuel bound
the loop is still running (`none`). -/
theorem C4_improved_builder_diverges :
    WellFormed trapVertices trapGraph ∧ DictLike trapGraph ∧
    ∀ (fuel : Nat) (s : ℤ) (r : RNG),
      greedy_path_from_start_improved fuel "a" trapGraph trapVertices (some s)
        Strategy.greedy r = none := by
  refine ⟨by decide, by decide, ?_⟩
  intro fuel s r
  have hloop : ∀ (f : Nat) (r0 : RNG),
      buildLoopBT trapGraph trapVertices scoreGreedy f ["a"] ["a"] "a" 0 r0
        = none := by
    intro f r0
    cases f with
    | zero => rfl
    | succ n => exact (trap_step0 n r0).trans (trap_loops n (rngNext r0)).1
  unfold greedy_path_from_start_improved
  simp only [scorerImproved, hloop]

/-- C5 counterexample: for a non-empty graph in which no edges are reachable
(a single isolated vertex), ExactSolve returns the empty path, not a
single-vertex path: the zero-edge singleton start state (length 0) never
strictly exceeds the initial best 0 and is never recorded. -/
theorem C5_counterexample :
    find_longest_path ["a"] [] = (0, []) ∧
    (find_longest_path ["a"] []).2.length ≠ 1 := by
  exact ⟨rfl, by decide⟩

/-- C5 amended: ExactSolve records a new best only at states whose length
strictly exceeds the running best, which starts at 0; the zero-edge
singleton state has length 0 and is never recorded, so whenever no valid
simple path of positive weight exists the result is (0, []) — the empty
path, not a single-vertex path. -/
theorem C5_amended {vertices : List String} {g : Graph}
    (hwf : WellFormed vertices g) (hd : DictLike g)
    (hnp : ∀ p, validPath vertices g p → pathWeight g p ≤ 0) :
    find_longest_path vertices g = (0, []) :=
  (find_longest_path_good hwf hd).eq_zero hnp

/-- C5 amended witness at the zero-weight edge graph. -/
theorem C5_amended_witness :
    find_longest_path ["a", "b"] zeroEdgeGraph = (0, []) :=
  C5_amended (by decide) (by decide)
    (fun p _ => pathWeight_nonpos (by decide) p)

/-- C6 counterexample: on the graph a-b = 10, b-c = 5, c-d = 1 the code's
threshold is 5 (the 3rd entry of the doubled weight list [10,10,5,5,1,1]),
while the claim's 3rd-largest DISTINCT weight is 1. -/
theorem C6_counterexample :
    high_weight_threshold threeEdgeGraph = 5 ∧
    thresholdSpecDistinct threeEdgeGraph = 1 ∧
    high_weight_threshold threeEdgeGraph ≠ thresholdSpecDistinct threeEdgeGraph := by
  refine ⟨rfl, rfl, ?_⟩
  rw [show high_weight_threshold threeEdgeGraph = 5 from rfl,
    show thresholdSpecDistinct threeEdgeGraph = 1 from rfl]
  norm_num

/-- C6 amended: the HighWeightPriority threshold equals the 3rd-largest
entry, counted WITH multiplicity, of the list of all adjacency weight
entries (each undirected edge contributing its weight twice, once per
direction), or the largest entry when that list has fewer than 3 entries
(0 when it is empty). -/
theorem C6_amended (g : Graph) :
    high_weight_threshold g = thresholdThirdLargest g :=
  threshold_eq_thirdLargest g

/-- C7 counterexample: on a six-edge graph the top set is not the 5
highest-weight edges and not a proper subset — it has all 6 edges, and the
minimum-weight edge a-b is itself a "top" edge, so it receives the +50%
bonus which the claim says some edge must miss. -/
theorem C7_counterexample :
    (all_edges sixEdgeGraph).length = 6 ∧
    (top_edges sixEdgeGraph).length = 6 ∧
    isTopEdge (top_edges sixEdgeGraph) "a" "b" = true :=
  ⟨rfl, rfl, rfl⟩

/-- C7 amended: `top_edges` takes `max(5, len)` of the sorted edge list, so
it is always a permutation of ALL edges; consequently every candidate edge
passes the top-edge test (+50% of weight bonus) and every neighbor that is
an endpoint of any edge is a top-edge endpoint (+20 bonus): no candidate
edge receives neither bonus. -/
theorem C7_amended (g : Graph) :
    (top_edges g).Perm (all_edges g) ∧
    ∀ u v w, (u, v, w) ∈ all_edges g → isTopEdge (top_edges g) u v = true :=
  ⟨top_edges_perm g, fun u v w h => all_edges_isTopEdge h⟩

/-- C7 amended witness: the minimum-weight edge of the six-edge graph is in
the edge list and passes the top-edge test. -/
theorem C7_amended_witness :
    ("a", "b", (1 : ℚ)) ∈ all_edges sixEdgeGraph ∧
    isTopEdge (top_edges sixEdgeGraph) "a" "b" = true :=
  ⟨by decide, (C7_amended sixEdgeGraph).2 "a" "b" 1 (by decide)⟩

/-- C8: ApproxSolve is deterministic given a seed: with the same graph,
options and fixed seed, the returned (length, path) pair is the same
whatever the ambient generator state was, because every builder invocation
reseeds from the caller-supplied seed.  This holds for the baseline driver
and for the improved driver. -/
theorem C8_deterministic_given_seed (vertices : List String) (g : Graph)
    (ns : Option Nat) (s : ℤ) (r1 r2 : RNG) (fuel : Nat) :
    (find_longest_path_approx vertices g ns (some s) r1).1 =
      (find_longest_path_approx vertices g ns (some s) r2).1 ∧
    (find_longest_path_approx_improved fuel vertices g ns (some s) r1).map
        Prod.fst =
      (find_longest_path_approx_improved fuel vertices g ns (some s) r2).map
        Prod.fst :=
  ⟨find_longest_path_approx_deterministic vertices g ns s r1 r2,
    find_longest_path_approx_improved_deterministic fuel vertices g ns s r1 r2⟩

/-- C9: For the empty graph (empty vertex set), ExactSolve and both
ApproxSolve drivers return exactly (0, []) and raise no exception — the
empty input is resolved locally to the degenerate result. -/
theorem C9_empty_graph (g : Graph) (ns : Option Nat) (rs : Option ℤ) (r : RNG)
    (fuel : Nat) :
    find_longest_path [] g = (0, []) ∧
    (find_longest_path_approx [] g ns rs r).1 = (0, []) ∧
    find_longest_path_approx_improved fuel [] g ns rs r = some ((0, []), r) :=
  ⟨rfl, rfl, rfl⟩

/-- C10: For every well-formed graph, including graphs with zero- or
negative-weight edges: every solver's length is at least 0; when no simple
path of strictly positive total weight exists they return (0, []) even
though the graph is non-empty; and whenever a returned path is non-empty it
has at least two vertices. -/
theorem C10_nonneg_zero_and_pairs {vertices : List String} {g : Graph}
    (hwf : WellFormed vertices g) (hd : DictLike g) (ns : Option Nat)
    (rs : Option ℤ) (r : RNG) (fuel : Nat) :
    (0 ≤ (find_longest_path vertices g).1 ∧
      0 ≤ (find_longest_path_approx vertices g ns rs r).1.1 ∧
      ∀ st, find_longest_path_approx_improved fuel vertices g ns rs r = some st
        → 0 ≤ st.1.1) ∧
    ((∀ p, validPath vertices g p → pathWeight g p ≤ 0) →
      find_longest_path vertices g = (0, []) ∧
      (find_longest_path_approx vertices g ns rs r).1 = (0, []) ∧
      ∀ st, find_longest_path_approx_improved fuel vertices g ns rs r = some st
        → st.1 = (0, [])) ∧
    (((find_longest_path vertices g).2 ≠ [] →
        2 ≤ (find_longest_path vertices g).2.length) ∧
      ((find_longest_path_approx vertices g ns rs r).1.2 ≠ [] →
        2 ≤ (find_longest_path_approx vertices g ns rs r).1.2.length) ∧
      ∀ st, find_longest_path_approx_improved fuel vertices g ns rs r = some st
        → st.1.2 ≠ [] → 2 ≤ st.1.2.length) := by
  refine ⟨⟨(find_longest_path_good hwf hd).nonneg,
      (find_longest_path_approx_good hwf hd ns rs r).nonneg,
      fun st hst =>
        (find_longest_path_approx_improved_good hwf hd fuel ns rs r hst).nonneg⟩,
    fun hnp => ⟨(find_longest_path_good hwf hd).eq_zero hnp,
      (find_longest_path_approx_good hwf hd ns rs r).eq_zero hnp,
      fun st hst =>
        (find_longest_path_approx_improved_good hwf hd fuel ns rs r hst).eq_zero
          hnp⟩,
    ⟨(find_longest_path_good hwf hd).two_le,
      (find_longest_path_approx_good hwf hd ns rs r).two_le,
      fun st hst =>
        (find_longest_path_approx_improved_good hwf hd fuel ns rs r hst).two_le⟩⟩

/-- C10 witness at the zero-weight edge graph (non-empty graph, no positive
path). -/
theorem C10_nonneg_zero_and_pairs_witness :
    0 ≤ (find_longest_path ["a", "b"] zeroEdgeGraph).1 ∧
    find_longest_path ["a", "b"] zeroEdgeGraph = (0, []) ∧
    (find_longest_path_approx ["a", "b"] zeroEdgeGraph none (some 42) 0).1
      = (0, []) :=
  ⟨(C10_nonneg_zero_and_pairs (by decide) (by decide) none (some 42) 0 5).1.1,
    ((C10_nonneg_zero_and_pairs (by decide) (by decide) none (some 42) 0
      5).2.1 (fun p _ => pathWeight_nonpos (by decide) p)).1,
    ((C10_nonneg_zero_and_pairs (by decide) (by decide) none (some 42) 0
      5).2.1 (fun p _ => pathWeight_nonpos (by decide) p)).2.1⟩
